import Mathlib

/-!
Verification development for the structural-diff library (package diff).

The Go source is shallowly embedded:
* namespace Diffseq models internal/diffseq (the edit-script merge layer over
  the external myers diff from github.com/pkg/diff);
* the value model (Ty, Val) and the walker (walk, equal, seqDiff, textDiff,
  sortedKeys, each) embed the current variant of diff.go, text.go, option.go;
* the formatter (writeTo) embeds the short/full renderer of format.go;
* a heap-based node model (CycM) embeds walk specialized to self-referential
  pointer structures, where cycles are representable.
All definitions are computable; theorems about claims C1-C10 come after the
definitions.
-/

set_option maxHeartbeats 1000000

namespace KrDiff

namespace Diffseq

/-- Operation of one range of an edit script.
Modelled from the spec: the underlying per-item script produced by the
external shortest-edit-distance module (github.com/pkg/diff/edit, not part of
this repository) is a list of contiguous ranges, each an insert, delete, or
equal run. -/
inductive Op where
  | ins
  | del
  | eq
deriving DecidableEq, Repr

/-- One contiguous range of an edit script, covering A[lowA:highA] and
B[lowB:highB]. Modelled from the spec: mirrors edit.Range of the external
github.com/pkg/diff/edit package. -/
structure Range where
  lowA : Nat
  highA : Nat
  lowB : Nat
  highB : Nat
deriving DecidableEq, Repr

/-- Operation represented by a range. Modelled from the spec: an insert
advances only in B (empty A-range), a delete advances only in A, an equal
run advances in both. -/
def Range.op (r : Range) : Op :=
  if r.lowA == r.highA then Op.ins
  else if r.lowB == r.highB then Op.del
  else Op.eq

/-- An Edit represents a single item in an edit script, either insert,
replace, or delete. It contains only changed items, no surrounding equal
context. (diffseq.go, type Edit) -/
structure Edit where
  a0 : Nat
  a1 : Nat
  b0 : Nat
  b1 : Nat
deriving DecidableEq, Repr

/-- Helper equivalent to the Go in-place update es[len(es)-1] = f(es[len(es)-1]). -/
def updateLast (f : Edit → Edit) : List Edit → List Edit
  | [] => []
  | [e] => [f e]
  | e :: e2 :: es => e :: updateLast f (e2 :: es)

/-- One step of the merge loop body (diffseq.go, merge): state is the list
built so far plus the needNext flag. -/
def mergeStep (s : List Edit × Bool) (r : Range) : List Edit × Bool :=
  match r.op with
  | Op.eq => (s.1, true)
  | Op.del =>
    if s.2 then
      (s.1 ++ [⟨r.lowA, r.highA, r.lowB, r.highB⟩], false)
    else
      (updateLast (fun e => { e with a1 := r.highA }) s.1, false)
  | Op.ins =>
    if s.2 then
      (s.1 ++ [⟨r.lowA, r.highA, r.lowB, r.highB⟩], false)
    else
      (updateLast (fun e => { e with b1 := r.highB }) s.1, false)

/-- merge transforms an edit.Script into a more useful edit script consisting
of Edit values: it drops equal runs and merges adjacent delete and insert
ranges not separated by an equal run into one replace entry.
(diffseq.go, merge) -/
def merge (script : List Range) : List Edit :=
  (script.foldl mergeStep ([], true)).1

/-- Recursive reformulation of merge used for proofs: the accumulator is the
currently open (extendable) edit, if any. -/
def mergeAux : List Range → Option Edit → List Edit
  | [], none => []
  | [], some e => [e]
  | r :: rs, acc =>
    match r.op, acc with
    | Op.eq, none => mergeAux rs none
    | Op.eq, some e => e :: mergeAux rs none
    | Op.del, none => mergeAux rs (some ⟨r.lowA, r.highA, r.lowB, r.highB⟩)
    | Op.del, some e => mergeAux rs (some { e with a1 := r.highA })
    | Op.ins, none => mergeAux rs (some ⟨r.lowA, r.highA, r.lowB, r.highB⟩)
    | Op.ins, some e => mergeAux rs (some { e with b1 := r.highB })

/-- Edit distance between suffixes, used by the executable script generator
to choose between deleting and inserting. Modelled from the spec: the
external module computes a shortest edit script; this distance function
realizes the same minimality criterion. -/
def dist (eqp : Nat → Nat → Bool) (na nb : Nat) : Nat → Nat → Nat
  | i, j =>
    if h : i < na then
      if h2 : j < nb then
        if eqp i j then dist eqp na nb (i + 1) (j + 1)
        else 1 + min (dist eqp na nb (i + 1) j) (dist eqp na nb i (j + 1))
      else na - i
    else nb - j
termination_by i j => (na - i) + (nb - j)

/-- Executable edit-script generator standing in for the external myers
module. Modelled from the spec: it produces a chained script of single-step
insert/delete/equal ranges covering both sequences, preferring equal runs
and otherwise the direction of smaller remaining edit distance. -/
def genScript (eqp : Nat → Nat → Bool) (na nb : Nat) : Nat → Nat → List Range
  | i, j =>
    if h : i < na then
      if h2 : j < nb then
        if eqp i j then
          ⟨i, i + 1, j, j + 1⟩ :: genScript eqp na nb (i + 1) (j + 1)
        else if dist eqp na nb (i + 1) j ≤ dist eqp na nb i (j + 1) then
          ⟨i, i + 1, j, j⟩ :: genScript eqp na nb (i + 1) j
        else
          ⟨i, i, j, j + 1⟩ :: genScript eqp na nb i (j + 1)
      else
        ⟨i, i + 1, j, j⟩ :: genScript eqp na nb (i + 1) j
    else if h2 : j < nb then
      ⟨i, i, j, j + 1⟩ :: genScript eqp na nb i (j + 1)
    else []
termination_by i j => (na - i) + (nb - j)

/-- Diff finds an edit script to transform a into b, using eq to determine
equality of items (diffseq.go, Diff; the external myers pass is realized by
genScript). -/
def Diff (na nb : Nat) (eqp : Nat → Nat → Bool) : List Edit :=
  merge (genScript eqp na nb 0 0)

/-- DiffSlice finds an edit script to transform a into b using the built-in
equality operator (diffseq.go, DiffSlice). -/
def DiffSlice {α : Type} [DecidableEq α] (a b : List α) : List Edit :=
  Diff a.length b.length (fun i j => a.get? i == b.get? j)

/-- Contiguous sublist l[i:j] (half-open). -/
def slice {α : Type} (l : List α) (i j : Nat) : List α :=
  (l.drop i).take (j - i)

/-- Tail of the edit-application recursion: copy the unchanged region of A up
to the next entry, substitute the entry's B-range, continue past the entry's
A-range. -/
def applyGo {α : Type} (A B : List α) : Nat → List Edit → List α
  | pa, [] => A.drop pa
  | pa, e :: es => slice A pa e.a0 ++ slice B e.b0 e.b1 ++ applyGo A B e.a1 es

/-- Applying an edit script to A, in the words of the spec: replace each
A-range with the corresponding B-range, copying unchanged regions between
entries. -/
def applyEdits {α : Type} (A B : List α) (es : List Edit) : List α :=
  applyGo A B 0 es

/-- Well-formedness of one script range with respect to an item predicate:
an insert is empty in A, a delete is empty in B, an equal run advances both
sides in step through related items; no range is empty on both sides. -/
def rangeOk (eqp : Nat → Nat → Bool) (r : Range) : Prop :=
  (r.lowA = r.highA ∧ r.lowB < r.highB) ∨
  (r.lowB = r.highB ∧ r.lowA < r.highA) ∨
  (r.lowA < r.highA ∧ r.lowB < r.highB ∧ r.highA - r.lowA = r.highB - r.lowB ∧
    ∀ k, k < r.highA - r.lowA → eqp (r.lowA + k) (r.lowB + k) = true)

/-- Chained pa pb s na nb: the ranges of s are contiguous, starting at
position (pa, pb) and ending at (na, nb). -/
inductive Chained : Nat → Nat → List Range → Nat → Nat → Prop
  | nil : ∀ pa pb, Chained pa pb [] pa pb
  | cons : ∀ pa pb (r : Range) rs na nb, r.lowA = pa → r.lowB = pb →
      Chained r.highA r.highB rs na nb → Chained pa pb (r :: rs) na nb

/-- Edit entries bounded below by (pa, pb), each well-formed, consecutive
entries strictly separated in both indices (the next lower bound is one past
the previous entry in both A and B). -/
def EditsLB : Nat → Nat → List Edit → Prop
  | _, _, [] => True
  | pa, pb, e :: es =>
    pa ≤ e.a0 ∧ pb ≤ e.b0 ∧ e.a0 ≤ e.a1 ∧ e.b0 ≤ e.b1 ∧
      EditsLB (e.a1 + 1) (e.b1 + 1) es

theorem updateLast_append (f : Edit → Edit) (cs : List Edit) (e : Edit) :
    updateLast f (cs ++ [e]) = cs ++ [f e] := by
  induction cs with
  | nil => rfl
  | cons c cs ih =>
    cases cs with
    | nil => rfl
    | cons c2 cs2 => simpa [updateLast] using ih

theorem foldl_mergeStep_none (rs : List Range) (cs : List Edit) :
    (rs.foldl mergeStep (cs, true)).1 = cs ++ mergeAux rs none ∧
      ∀ e : Edit,
        (rs.foldl mergeStep (cs ++ [e], false)).1 = cs ++ mergeAux rs (some e) := by
  induction rs generalizing cs with
  | nil => simp [mergeAux]
  | cons r rs ih =>
    refine ⟨?_, fun e => ?_⟩
    · cases hop : r.op with
      | eq => simpa [mergeStep, hop, mergeAux] using (ih cs).1
      | del => simpa [mergeStep, hop, mergeAux] using (ih cs).2 _
      | ins => simpa [mergeStep, hop, mergeAux] using (ih cs).2 _
    · cases hop : r.op with
      | eq =>
        have := (ih (cs ++ [e])).1
        simpa [mergeStep, hop, mergeAux] using this
      | del =>
        have := (ih cs).2 { e with a1 := r.highA }
        simpa [mergeStep, hop, mergeAux, updateLast_append] using this
      | ins =>
        have := (ih cs).2 { e with b1 := r.highB }
        simpa [mergeStep, hop, mergeAux, updateLast_append] using this

theorem merge_eq_mergeAux (s : List Range) : merge s = mergeAux s none := by
  simpa [merge] using (foldl_mergeStep_none s []).1

theorem slice_append_drop {α : Type} (l : List α) {i j : Nat} (h : i ≤ j) :
    slice l i j ++ l.drop j = l.drop i := by
  have h2 : l.drop j = (l.drop i).drop (j - i) := by
    rw [List.drop_drop]
    congr 1
    omega
  rw [slice, h2, List.take_append_drop]

theorem slice_split {α : Type} (l : List α) {i q j : Nat} (h1 : i ≤ q)
    (h2 : q ≤ j) : slice l i j = slice l i q ++ slice l q j := by
  have h3 : j - i = (q - i) + (j - q) := by omega
  have h4 : l.drop q = (l.drop i).drop (q - i) := by
    rw [List.drop_drop]; congr 1; omega
  rw [slice, h3, List.take_add, slice, slice, h4]

theorem slice_congr {α : Type} (A B : List α) (pa pb m : Nat)
    (h : ∀ k, k < m → A.get? (pa + k) = B.get? (pb + k)) :
    slice A pa (pa + m) = slice B pb (pb + m) := by
  apply List.ext_get?
  intro k
  rcases Nat.lt_or_ge k m with hk | hk
  · rw [slice, slice]
    have ha : (pa + m) - pa = m := by omega
    have hb : (pb + m) - pb = m := by omega
    rw [ha, hb, List.get?_take hk, List.get?_take hk, List.get?_drop,
      List.get?_drop]
    exact h k hk
  · have ha : (slice A pa (pa + m)).length ≤ m := by
      simp only [slice, List.length_take, List.length_drop]
      omega
    have hb : (slice B pb (pb + m)).length ≤ m := by
      simp only [slice, List.length_take, List.length_drop]
      omega
    rw [List.get?_eq_none.2 (le_trans ha hk), List.get?_eq_none.2 (le_trans hb hk)]

theorem rangeOk_le {eqp : Nat → Nat → Bool} {r : Range} (h : rangeOk eqp r) :
    r.lowA ≤ r.highA ∧ r.lowB ≤ r.highB := by
  rcases h with ⟨h1, h2⟩ | ⟨h1, h2⟩ | ⟨h1, h2, h3, h4⟩ <;> omega

theorem chained_bounds (eqp : Nat → Nat → Bool) :
    ∀ {pa pb : Nat} {s : List Range} {na nb : Nat}, Chained pa pb s na nb →
      (∀ r ∈ s, rangeOk eqp r) → pa ≤ na ∧ pb ≤ nb := by
  intro pa pb s na nb hch
  induction hch with
  | nil => intro _; exact ⟨le_refl _, le_refl _⟩
  | cons pa pb r rs na nb hla hlb hc ih =>
    intro hok
    have h1 := rangeOk_le (hok r (List.mem_cons_self r rs))
    have h2 := ih (fun x hx => hok x (List.mem_cons_of_mem r hx))
    omega

theorem rangeOk_op {eqp : Nat → Nat → Bool} {r : Range} (h : rangeOk eqp r) :
    (r.op = Op.ins ∧ r.lowA = r.highA ∧ r.lowB < r.highB) ∨
    (r.op = Op.del ∧ r.lowB = r.highB ∧ r.lowA < r.highA) ∨
    (r.op = Op.eq ∧ r.lowA < r.highA ∧ r.lowB < r.highB ∧
      r.highA - r.lowA = r.highB - r.lowB ∧
      ∀ k, k < r.highA - r.lowA → eqp (r.lowA + k) (r.lowB + k) = true) := by
  rcases h with ⟨h1, h2⟩ | ⟨h1, h2⟩ | ⟨h1, h2, h3, h4⟩
  · exact Or.inl ⟨by simp [Range.op, h1], h1, h2⟩
  · refine Or.inr (Or.inl ⟨?_, h1, h2⟩)
    have : (r.lowA == r.highA) = false := by
      simp only [beq_eq_false_iff_ne]; omega
    simp [Range.op, this, h1]
  · refine Or.inr (Or.inr ⟨?_, h1, h2, h3, h4⟩)
    have ha : (r.lowA == r.highA) = false := by
      simp only [beq_eq_false_iff_ne]; omega
    have hb : (r.lowB == r.highB) = false := by
      simp only [beq_eq_false_iff_ne]; omega
    simp [Range.op, ha, hb]

theorem editsLB_anti {pa pb pa2 pb2 : Nat} {es : List Edit} (h1 : pa2 ≤ pa)
    (h2 : pb2 ≤ pb) (h : EditsLB pa pb es) : EditsLB pa2 pb2 es := by
  cases es with
  | nil => trivial
  | cons e es =>
    simp only [EditsLB] at h ⊢
    exact ⟨by omega, by omega, h.2.2.1, h.2.2.2.1, h.2.2.2.2⟩

theorem mergeAux_mono (eqp : Nat → Nat → Bool) :
    ∀ (s : List Range) (pa pb na nb : Nat), Chained pa pb s na nb →
      (∀ r ∈ s, rangeOk eqp r) →
      EditsLB pa pb (mergeAux s none) ∧
      ∀ e : Edit, e.a1 = pa → e.b1 = pb →
        ∃ e2 es2, mergeAux s (some e) = e2 :: es2 ∧ e2.a0 = e.a0 ∧
          e2.b0 = e.b0 ∧ e.a1 ≤ e2.a1 ∧ e.b1 ≤ e2.b1 ∧ e2.a1 ≤ na ∧
          e2.b1 ≤ nb ∧ EditsLB (e2.a1 + 1) (e2.b1 + 1) es2 := by
  intro s
  induction s with
  | nil =>
    intro pa pb na nb hch hok
    cases hch with
    | nil =>
      refine ⟨trivial, fun e h1 h2 => ⟨e, [], rfl, rfl, rfl, le_refl _,
        le_refl _, by omega, by omega, trivial⟩⟩
  | cons r rs ih =>
    intro pa pb na nb hch hok
    cases hch with
    | cons _ _ _ _ _ _ hla hlb hc =>
      have hokr := hok r (List.mem_cons_self r rs)
      have hokrs : ∀ x ∈ rs, rangeOk eqp x :=
        fun x hx => hok x (List.mem_cons_of_mem r hx)
      have hbnd := chained_bounds eqp hc hokrs
      rcases rangeOk_op hokr with ⟨hop, h1, h2⟩ | ⟨hop, h1, h2⟩ |
        ⟨hop, h1, h2, h3, h4⟩
      · -- insert range: open or extend an edit on the B side
        constructor
        · have := (ih r.highA r.highB na nb hc hokrs).2
            ⟨r.lowA, r.highA, r.lowB, r.highB⟩ rfl rfl
          rcases this with ⟨e2, es2, heq, ha0, hb0, ha1, hb1, hna, hnb, hlb2⟩
          simp only [mergeAux, hop]
          rw [heq]
          simp only [EditsLB]
          simp only at ha0 hb0 ha1 hb1
          refine ⟨by omega, by omega, by omega, by omega, hlb2⟩
        · intro e he1 he2
          have := (ih r.highA r.highB na nb hc hokrs).2
            { e with b1 := r.highB } (by simp; omega) rfl
          rcases this with ⟨e2, es2, heq, ha0, hb0, ha1, hb1, hna, hnb, hlb2⟩
          refine ⟨e2, es2, ?_, ?_, ?_, ?_, ?_, hna, hnb, hlb2⟩
          · simp only [mergeAux, hop]; exact heq
          · simpa using ha0
          · simpa using hb0
          · simp at ha1; omega
          · simp at hb1; omega
      · -- delete range: open or extend an edit on the A side
        constructor
        · have := (ih r.highA r.highB na nb hc hokrs).2
            ⟨r.lowA, r.highA, r.lowB, r.highB⟩ rfl rfl
          rcases this with ⟨e2, es2, heq, ha0, hb0, ha1, hb1, hna, hnb, hlb2⟩
          simp only [mergeAux, hop]
          rw [heq]
          simp only [EditsLB]
          simp only at ha0 hb0 ha1 hb1
          refine ⟨by omega, by omega, by omega, by omega, hlb2⟩
        · intro e he1 he2
          have := (ih r.highA r.highB na nb hc hokrs).2
            { e with a1 := r.highA } rfl (by simp; omega)
          rcases this with ⟨e2, es2, heq, ha0, hb0, ha1, hb1, hna, hnb, hlb2⟩
          refine ⟨e2, es2, ?_, ?_, ?_, ?_, ?_, hna, hnb, hlb2⟩
          · simp only [mergeAux, hop]; exact heq
          · simpa using ha0
          · simpa using hb0
          · simp at ha1; omega
          · simp at hb1; omega
      · -- equal run: closes any open edit
        have ihn := (ih r.highA r.highB na nb hc hokrs).1
        constructor
        · simp only [mergeAux, hop]
          exact editsLB_anti (by omega) (by omega) ihn
        · intro e he1 he2
          refine ⟨e, mergeAux rs none, by simp only [mergeAux, hop], rfl, rfl,
            le_refl _, le_refl _, by omega, by omega, ?_⟩
          exact editsLB_anti (by omega) (by omega) ihn

theorem applyGo_shift {α : Type} (A B : List α) {pa q : Nat}
    (es : List Edit) (h1 : pa ≤ q)
    (h2 : match es with | [] => True | e :: _ => q ≤ e.a0) :
    applyGo A B pa es = slice A pa q ++ applyGo A B q es := by
  cases es with
  | nil => simp only [applyGo]; exact (slice_append_drop A h1).symm
  | cons e es =>
    simp only [applyGo]
    rw [slice_split A h1 h2]
    simp [List.append_assoc]

theorem mergeAux_apply {α : Type} (A B : List α) (eqp : Nat → Nat → Bool)
    (himp : ∀ i j, eqp i j = true → A.get? i = B.get? j) :
    ∀ (s : List Range) (pa pb : Nat), Chained pa pb s A.length B.length →
      (∀ r ∈ s, rangeOk eqp r) →
      (applyGo A B pa (mergeAux s none) = B.drop pb) ∧
      ∀ e : Edit, e.a1 = pa → e.b1 = pb → e.a0 ≤ pa → e.b0 ≤ pb →
        applyGo A B e.a0 (mergeAux s (some e)) = B.drop e.b0 := by
  intro s
  induction s with
  | nil =>
    intro pa pb hch hok
    cases hch with
    | nil =>
      constructor
      · simp only [mergeAux, applyGo, List.drop_length]
      · intro e he1 he2 he3 he4
        simp only [mergeAux, applyGo]
        have hempty : slice A e.a0 e.a0 = [] := by
          simp [slice]
        rw [hempty, List.nil_append, he1, List.drop_length, List.append_nil,
          he2]
        have h5 := slice_append_drop B he4
        rwa [List.drop_length, List.append_nil] at h5
  | cons r rs ih =>
    intro pa pb hch hok
    cases hch with
    | cons _ _ _ _ _ _ hla hlb hc =>
      have hokr := hok r (List.mem_cons_self r rs)
      have hokrs : ∀ x ∈ rs, rangeOk eqp x :=
        fun x hx => hok x (List.mem_cons_of_mem r hx)
      have hbnd := chained_bounds eqp hc hokrs
      rcases rangeOk_op hokr with ⟨hop, h1, h2⟩ | ⟨hop, h1, h2⟩ |
        ⟨hop, h1, h2, h3, h4⟩
      · -- insert range
        constructor
        · have := (ih r.highA r.highB hc hokrs).2
            ⟨r.lowA, r.highA, r.lowB, r.highB⟩ rfl rfl
            (by simp only; omega) (by simp only; omega)
          simp only at this
          simp only [mergeAux, hop]
          rw [← hla, ← hlb]
          exact this
        · intro e he1 he2 he3 he4
          have := (ih r.highA r.highB hc hokrs).2
            { e with b1 := r.highB } (by simp; omega) rfl (by simp; omega)
            (by simp; omega)
          simp only at this
          simp only [mergeAux, hop]
          exact this
      · -- delete range
        constructor
        · have := (ih r.highA r.highB hc hokrs).2
            ⟨r.lowA, r.highA, r.lowB, r.highB⟩ rfl rfl
            (by simp only; omega) (by simp only; omega)
          simp only at this
          simp only [mergeAux, hop]
          rw [← hla, ← hlb]
          exact this
        · intro e he1 he2 he3 he4
          have := (ih r.highA r.highB hc hokrs).2
            { e with a1 := r.highA } rfl (by simp; omega) (by simp; omega)
            (by simp; omega)
          simp only at this
          simp only [mergeAux, hop]
          exact this
      · -- equal run
        have hnone : applyGo A B pa (mergeAux rs none) = B.drop pb := by
          have hmono := (mergeAux_mono eqp rs r.highA r.highB
            A.length B.length hc hokrs).1
          have hhead : match mergeAux rs none with
            | [] => True
            | e :: _ => r.highA ≤ e.a0 := by
            cases hm : mergeAux rs none with
            | nil => trivial
            | cons e es =>
              rw [hm] at hmono
              simp only [EditsLB] at hmono
              exact hmono.1
          rw [applyGo_shift A B (mergeAux rs none) (by omega) hhead]
          have hslice : slice A pa r.highA = slice B pb r.highB := by
            have hm : r.highA = pa + (r.highA - r.lowA) := by omega
            have hm2 : r.highB = pb + (r.highA - r.lowA) := by omega
            rw [hm, hm2]
            apply slice_congr
            intro k hk
            have := h4 k hk
            rw [hla, hlb] at this
            exact himp _ _ this
          rw [hslice, (ih r.highA r.highB hc hokrs).1]
          have : pb ≤ r.highB := by omega
          exact slice_append_drop B this
        constructor
        · simp only [mergeAux, hop]
          exact hnone
        · intro e he1 he2 he3 he4
          simp only [mergeAux, hop, applyGo]
          have hempty : slice A e.a0 e.a0 = [] := by simp [slice]
          rw [hempty, List.nil_append, he1, hnone, he2]
          exact slice_append_drop B he4

/-- Ranges of a generated script are chained from (i, j) to (na, nb). -/
theorem genScript_chained (eqp : Nat → Nat → Bool) (na nb : Nat) :
    ∀ i j, i ≤ na → j ≤ nb → Chained i j (genScript eqp na nb i j) na nb := by
  have H : ∀ (n i j : Nat), (na - i) + (nb - j) ≤ n → i ≤ na → j ≤ nb →
      Chained i j (genScript eqp na nb i j) na nb := by
    intro n
    induction n with
    | zero =>
      intro i j hn hi hj
      have hna : i = na := by omega
      have hnb : j = nb := by omega
      subst hna; subst hnb
      rw [genScript]
      simp only [lt_irrefl, dite_false]
      exact Chained.nil _ _
    | succ n ih =>
      intro i j hn hi hj
      rw [genScript]
      by_cases h : i < na
      · by_cases h2 : j < nb
        · by_cases h3 : eqp i j = true
          · rw [dif_pos h, dif_pos h2, if_pos h3]
            refine Chained.cons _ _ _ _ _ _ rfl rfl ?_
            simp only
            exact ih _ _ (by omega) (by omega) (by omega)
          · rw [dif_pos h, dif_pos h2, if_neg h3]
            by_cases h4 : dist eqp na nb (i + 1) j ≤ dist eqp na nb i (j + 1)
            · rw [if_pos h4]
              refine Chained.cons _ _ _ _ _ _ rfl rfl ?_
              simp only
              exact ih _ _ (by omega) (by omega) (by omega)
            · rw [if_neg h4]
              refine Chained.cons _ _ _ _ _ _ rfl rfl ?_
              simp only
              exact ih _ _ (by omega) (by omega) (by omega)
        · rw [dif_pos h, dif_neg h2]
          refine Chained.cons _ _ _ _ _ _ rfl rfl ?_
          simp only
          exact ih _ _ (by omega) (by omega) (by omega)
      · by_cases h2 : j < nb
        · rw [dif_neg h, dif_pos h2]
          refine Chained.cons _ _ _ _ _ _ rfl rfl ?_
          simp only
          exact ih _ _ (by omega) (by omega) (by omega)
        · rw [dif_neg h, dif_neg h2]
          have hna : i = na := by omega
          have hnb : j = nb := by omega
          subst hna; subst hnb
          exact Chained.nil _ _
  exact fun i j => H ((na - i) + (nb - j)) i j (le_refl _)

/-- Every range of a generated script is well-formed for the predicate. -/
theorem genScript_ok (eqp : Nat → Nat → Bool) (na nb : Nat) :
    ∀ i j, ∀ r ∈ genScript eqp na nb i j, rangeOk eqp r := by
  have H : ∀ (n i j : Nat), (na - i) + (nb - j) ≤ n →
      ∀ r ∈ genScript eqp na nb i j, rangeOk eqp r := by
    intro n
    induction n with
    | zero =>
      intro i j hn r hr
      rw [genScript] at hr
      have h : ¬ i < na := by omega
      have h2 : ¬ j < nb := by omega
      simp only [dif_neg h, dif_neg h2, List.not_mem_nil] at hr
    | succ n ih =>
      intro i j hn r hr
      rw [genScript] at hr
      by_cases h : i < na
      · by_cases h2 : j < nb
        · by_cases h3 : eqp i j = true
          · rw [dif_pos h, dif_pos h2, if_pos h3] at hr
            rcases List.mem_cons.mp hr with hr2 | hr2
            · subst hr2
              refine Or.inr (Or.inr ⟨?_, ?_, ?_, ?_⟩)
              · simp only; omega
              · simp only; omega
              · simp only; omega
              · intro k hk
                simp only at hk ⊢
                have hk0 : k = 0 := by omega
                subst hk0
                simpa using h3
            · exact ih _ _ (by omega) r hr2
          · rw [dif_pos h, dif_pos h2, if_neg h3] at hr
            by_cases h4 : dist eqp na nb (i + 1) j ≤ dist eqp na nb i (j + 1)
            · rw [if_pos h4] at hr
              rcases List.mem_cons.mp hr with hr2 | hr2
              · subst hr2
                refine Or.inr (Or.inl ⟨rfl, ?_⟩)
                simp only; omega
              · exact ih _ _ (by omega) r hr2
            · rw [if_neg h4] at hr
              rcases List.mem_cons.mp hr with hr2 | hr2
              · subst hr2
                refine Or.inl ⟨rfl, ?_⟩
                simp only; omega
              · exact ih _ _ (by omega) r hr2
        · rw [dif_pos h, dif_neg h2] at hr
          rcases List.mem_cons.mp hr with hr2 | hr2
          · subst hr2
            refine Or.inr (Or.inl ⟨rfl, ?_⟩)
            simp only; omega
          · exact ih _ _ (by omega) r hr2
      · by_cases h2 : j < nb
        · rw [dif_neg h, dif_pos h2] at hr
          rcases List.mem_cons.mp hr with hr2 | hr2
          · subst hr2
            refine Or.inl ⟨rfl, ?_⟩
            simp only; omega
          · exact ih _ _ (by omega) r hr2
        · rw [dif_neg h, dif_neg h2] at hr
          exact absurd hr (List.not_mem_nil r)
  exact fun i j => H ((na - i) + (nb - j)) i j (le_refl _)

theorem op_eq_step (i j : Nat) : Range.op ⟨i, i + 1, j, j + 1⟩ = Op.eq := by
  simp [Range.op]

/-- When the two sequences have equal length and the predicate holds on the
diagonal, the generated script is all equal runs and merging yields the
empty edit script. -/
theorem diff_all_eq (eqp : Nat → Nat → Bool) (n : Nat)
    (hd : ∀ k, k < n → eqp k k = true) : Diff n n eqp = [] := by
  have H : ∀ (m i : Nat), n - i ≤ m →
      mergeAux (genScript eqp n n i i) none = [] := by
    intro m
    induction m with
    | zero =>
      intro i hm
      have h : ¬ i < n := by omega
      rw [genScript, dif_neg h, dif_neg h]
      rfl
    | succ m ih =>
      intro i hm
      by_cases h : i < n
      · rw [genScript, dif_pos h, dif_pos h, if_pos (hd i h)]
        have hop := op_eq_step i i
        simp only [mergeAux, hop]
        exact ih (i + 1) (by omega)
      · rw [genScript, dif_neg h, dif_neg h]
        rfl
  rw [Diff, merge_eq_mergeAux]
  exact H n 0 (by omega)

/-- Correctness of the produced edit script when the item predicate implies
genuine item equality: applying the entries to A reconstructs B, and the
entries are strictly increasing and non-overlapping in both sequences. -/
theorem Diff_correct {α : Type} (A B : List α) (eqp : Nat → Nat → Bool)
    (himp : ∀ i j, eqp i j = true → A.get? i = B.get? j) :
    applyEdits A B (Diff A.length B.length eqp) = B ∧
      EditsLB 0 0 (Diff A.length B.length eqp) := by
  have hch := genScript_chained eqp A.length B.length 0 0 (by omega) (by omega)
  have hok := genScript_ok eqp A.length B.length 0 0
  constructor
  · have := (mergeAux_apply A B eqp himp _ 0 0 hch hok).1
    rw [applyEdits, Diff, merge_eq_mergeAux, this, List.drop_zero]
  · have := (mergeAux_mono eqp _ 0 0 A.length B.length hch hok).1
    rw [Diff, merge_eq_mergeAux]
    exact this

/-- Monotonicity of the produced entries holds for every item predicate. -/
theorem Diff_mono (na nb : Nat) (eqp : Nat → Nat → Bool) :
    EditsLB 0 0 (Diff na nb eqp) := by
  have hch := genScript_chained eqp na nb 0 0 (by omega) (by omega)
  have hok := genScript_ok eqp na nb 0 0
  have := (mergeAux_mono eqp _ 0 0 na nb hch hok).1
  rw [Diff, merge_eq_mergeAux]
  exact this

end Diffseq

/-!
Value model: a closed universe of Go runtime values covering the shape
categories the walker dispatches on (diff.go). Pointers, slices and maps
carry an address identity (Pointer()) plus their referent inline, so every
modelled value is acyclic; cyclic structures are modelled separately.
Byte-convertible slices, channels, unsafe pointers, complex numbers, floats
and interfaces inside containers are outside this model. Map keys are fixed
to int. Struct types are compared by name, as Go compares named types.
-/

/-- Shape descriptor (reflect.Type) for the modelled value universe. -/
inductive Ty where
  | int
  | bool
  | str
  | func
  | ptr (t : Ty)
  | slice (t : Ty)
  | arr (n : Nat) (t : Ty)
  | mapT (t : Ty)
  | structT (name : String)
deriving DecidableEq, Repr

/-- Runtime value. vPtr, vSlice and vMap hold none when nil, otherwise an
address identity (the value of Pointer()) paired with the referent. -/
inductive Val where
  | vInt (n : Int)
  | vBool (b : Bool)
  | vStr (s : String)
  | vFunc (p : Option Nat)
  | vPtr (t : Ty) (p : Option (Nat × Val))
  | vSlice (t : Ty) (p : Option (Nat × List Val))
  | vMap (t : Ty) (p : Option (Nat × List (Int × Val)))
  | vArr (t : Ty) (elems : List Val)
  | vStruct (name : String) (fields : List (String × Val))

/-- The reflect.Type of a value. -/
def Val.ty : Val → Ty
  | .vInt _ => .int
  | .vBool _ => .bool
  | .vStr _ => .str
  | .vFunc _ => .func
  | .vPtr t _ => .ptr t
  | .vSlice t _ => .slice t
  | .vMap t _ => .mapT t
  | .vArr t es => .arr es.length t
  | .vStruct n _ => .structT n

mutual

/-- Size measure of a value, used for termination of the walker. -/
def vsz : Val → Nat
  | .vInt _ => 1
  | .vBool _ => 1
  | .vStr _ => 1
  | .vFunc _ => 1
  | .vPtr _ p => match p with | none => 1 | some pr => 2 + vsz pr.2
  | .vSlice _ p => match p with | none => 1 | some pr => 2 + lsz pr.2
  | .vMap _ p => match p with | none => 1 | some pr => 2 + msz pr.2
  | .vArr _ es => 2 + lsz es
  | .vStruct _ fs => 2 + fsz fs

/-- Size of a list of values. -/
def lsz : List Val → Nat
  | [] => 0
  | v :: vs => 1 + vsz v + lsz vs

/-- Size of a list of map entries. -/
def msz : List (Int × Val) → Nat
  | [] => 0
  | kv :: vs => 1 + vsz kv.2 + msz vs

/-- Size of a list of struct fields. -/
def fsz : List (String × Val) → Nat
  | [] => 0
  | fv :: vs => 1 + vsz fv.2 + fsz vs

end

/-- Size of a possibly invalid value. -/
def osz : Option Val → Nat
  | none => 0
  | some v => 1 + vsz v

/-- Visit-table key and value (diff.go, type visit): address identity plus
type. -/
structure Visit where
  p : Nat
  t : Ty
deriving DecidableEq, Repr

/-- A visit table, one per side of the comparison. New pairings are recorded
at the front; lookup takes the first match, which agrees with Go map
semantics because a key is never inserted twice. -/
abbrev Table := List (Visit × Visit)

def lookupTab (tab : Table) (k : Visit) : Option Visit :=
  match tab.find? (fun x => x.1 == k) with
  | some x => some x.2
  | none => none

/-- Session state: the two visit tables (differ.aSeen, differ.bSeen). -/
structure St where
  aSeen : Table
  bSeen : Table
deriving Repr

def emptySt : St := ⟨[], []⟩

/-- Ghost trace events recording visit-table operations and structural
descents, used to state session invariants. -/
inductive Ev where
  | lookA (k : Visit) (res : Option Visit)
  | lookB (k : Visit) (res : Option Visit)
  | insA (k v : Visit)
  | insB (k v : Visit)
  | descend (a b : Visit)
deriving DecidableEq, Repr

/-- Verbosity level (option.go, type level). -/
inductive Level where
  | auto
  | pathOnly
  | full
deriving DecidableEq, Repr

/-- A transform hook. The Go walker re-enters transform hooks on subvalues
of a transformed pair and does not terminate when a hook grows its argument
without bound, so the model restricts hooks to size-nonincreasing functions;
the hooks the library installs (and the claims exercise) are of this form. -/
structure XformFn where
  f : Val → Val
  bounded : ∀ v, vsz (f v) ≤ vsz v

/-- Session configuration (diff.go, type config). The sink is modelled by
returning the list of emitted differences; helper and output are test/log
plumbing with no behavioral content. -/
structure Cfg where
  level : Level
  equalFuncs : Bool
  xform : List (Ty × XformFn)
  showOrig : Bool
  format : List (Ty × (Val → Val → String))
  aLabel : String
  bLabel : String

/-- Default options (option.go, Default): EmitAuto plus TimeEqual and
TimeDelta, which register hooks for time.Time only; time.Time is not a type
of this value model, so the default hook maps restricted to the model are
empty. equalFuncs defaults to false (the zero value of config). -/
def defaultCfg : Cfg :=
  { level := Level.auto
    equalFuncs := false
    xform := []
    showOrig := false
    format := []
    aLabel := "a"
    bLabel := "b" }

def lookupXf (c : Cfg) (t : Ty) : Option XformFn :=
  match c.xform.find? (fun x => x.1 == t) with
  | some x => some x.2
  | none => none

def lookupFmt (c : Cfg) (t : Ty) : Option (Val → Val → String) :=
  match c.format.find? (fun x => x.1 == t) with
  | some x => some x.2
  | none => none

/-- Short rendering of a type (format.go, writeType with full=false). Named
types print their name; type literals are built structurally. Map keys are
int in this model. -/
def writeType : Ty → String
  | .int => "int"
  | .bool => "bool"
  | .str => "string"
  | .func => "func()"
  | .ptr t => "*" ++ writeType t
  | .slice t => "[]" ++ writeType t
  | .arr n t => "[" ++ toString n ++ "]" ++ writeType t
  | .mapT t => "map[int]" ++ writeType t
  | .structT name => name

/-- Structured message of one emitted difference. Rendered values are kept
structurally (the format verbs of diff.go are presentation only). -/
inductive Msg where
  | vneq (a b : Option Val) (wantType : Bool)
  | unevenCycle
  | removed
  | added (b : Val)
  | strNeq (a b : String)
  | unified (a b aLabel bLabel : String)
  | inlineNeq (a b : String)
  | rangeNeq (t : Ty) (aseg bseg : List Val)
  | hooked (s : String)
  | origEqual
  | emptyMsg

/-- One reported difference: the root type and path (diff.go, type emitter)
plus the current value pair and the message. -/
structure Report where
  rootType : String
  path : List String
  av : Option Val
  bv : Option Val
  msg : Msg

/-- Emitter (diff.go, type emitter): root type, path, and the current value
pair (emitter.set). -/
structure Em where
  rootType : String
  path : List String
  av : Option Val
  bv : Option Val

def emptyEm : Em := ⟨"", [], none, none⟩

/-- emitter.set. -/
def Em.set (e : Em) (av bv : Option Val) : Em :=
  { e with av := av, bv := bv }

/-- emitter.subf: extends the path and fills in the root type on first use. -/
def Em.subf (e : Em) (t : Ty) (seg : String) : Em :=
  { rootType := if e.rootType = "" then writeType t else e.rootType
    path := e.path ++ [seg]
    av := none
    bv := none }

/-- emitter.emitf: one difference through the sink. -/
def emitf (e : Em) (m : Msg) : List Report :=
  [⟨e.rootType, e.path, e.av, e.bv, m⟩]

/-!
Text diff (text.go). Strings of the model are always valid UTF-8 (Lean
strings), so the binary branch of stringDiff is unreachable here. Both
separator arguments of textCheck at its call sites are single-byte strings,
modelled as characters. len(s) is the byte length of s.
-/

/-- Byte length of a string, Go len(s). -/
def strLen (s : String) : Nat := s.utf8ByteSize

/-- Number of non-overlapping occurrences of the one-byte separator,
Go strings.Count(s, sep). -/
def countSep (s : String) (sep : Char) : Nat := s.data.count sep

/-- text.go, textCheck: s splits into at least nmin parts with average byte
length at most amax (integer division of the total byte length by the part
count). -/
def textCheck (s : String) (sep : Char) (nmin amax : Nat) : Bool :=
  let n := countSep s sep + 1
  n ≥ nmin && strLen s / n ≤ amax

/-- text.go, splitRunes: the string as a list of one-rune strings. -/
def splitRunes (s : String) : List String :=
  s.data.map (fun c => String.mk [c])

/-- Go strings.SplitAfter(s, sep) for a one-byte separator: split after each
occurrence of sep, keeping it attached to the preceding part. -/
def splitAfterGo (sep : Char) : List Char → List Char → List (List Char)
  | acc, [] => [acc.reverse]
  | acc, c :: rest =>
    if c = sep then (acc.reverse ++ [c]) :: splitAfterGo sep [] rest
    else splitAfterGo sep (c :: acc) rest

def splitAfter (s : String) (sep : Char) : List String :=
  (splitAfterGo sep [] s.data).map String.mk

/-- text.go, accum: cumulative byte offsets of the parts, starting at 0. -/
def accumGo (n : Nat) : List String → List Nat
  | [] => []
  | s :: rest => (n + strLen s) :: accumGo (n + strLen s) rest

def accum (a : List String) : List Nat := 0 :: accumGo 0 a

/-- Go s[i:j] byte slicing (positions here are always rune boundaries). -/
def strSlice (s : String) (i j : Nat) : String :=
  s.extract ⟨i⟩ ⟨j⟩

/-- text.go, textDiffInline: report each changed byte range with its two
substrings. -/
def textDiffInline (e : Em) (a b : String) (as2 bs2 : List String) :
    List Report :=
  let acut := accum as2
  let bcut := accum bs2
  (Diffseq.DiffSlice as2 bs2).flatMap (fun ed =>
    let a0 := acut.getD ed.a0 0
    let a1 := acut.getD ed.a1 0
    let b0 := bcut.getD ed.b0 0
    let b1 := bcut.getD ed.b1 0
    let ee := e.subf Ty.str ("[" ++ toString a0 ++ ":" ++ toString a1 ++ "]")
    emitf ee (Msg.inlineNeq (strSlice a a0 a1) (strSlice b b0 b1)))

/-- text.go, textDiff: granularity selection, most specific first. The
multi-line rendering (diffTextFormatter) is kept as a structured payload. -/
def textDiff (c : Cfg) (e : Em) (a b : String) : List Report :=
  if c.level = Level.full then
    emitf e Msg.emptyMsg
  else if textCheck a '\n' 2 72 && textCheck b '\n' 2 72 then
    emitf e (Msg.unified a b c.aLabel c.bLabel)
  else if (strLen a < 20 && strLen b < 20) || a = "" || b = "" then
    emitf e (Msg.strNeq a b)
  else if textCheck a ' ' 3 10 && textCheck b ' ' 3 10 then
    textDiffInline e a b (splitAfter a ' ') (splitAfter b ' ')
  else
    textDiffInline e a b (splitRunes a) (splitRunes b)

/-- diff.go, (*differ).stringDiff: equal strings emit nothing; model strings
are always valid UTF-8, so the binary branch is dropped. -/
def stringDiff (c : Cfg) (e : Em) (a b : String) : List Report :=
  if a = b then []
  else textDiff c e a b

/-- Insertion into a sorted list of keys. -/
def insertSorted (x : Int) : List Int → List Int
  | [] => [x]
  | y :: ys => if x ≤ y then x :: y :: ys else y :: insertSorted x ys

def sortInts : List Int → List Int
  | [] => []
  | x :: xs => insertSorted x (sortInts xs)

/-- diff.go, sortedKeys: the union of the key sets of the given maps, in
sorted order. The merged Go map holds each key once; fmtsort.Sort on int
keys sorts ascending (fmtsort is external; modelled by its contract). -/
def sortedKeys (ms : List (List (Int × Val))) : List Int :=
  sortInts ((ms.flatMap (fun m => m.map Prod.fst)).dedup)

/-- Go m.MapIndex(k): the value for key k, invalid when absent. -/
def mapIndex (m : List (Int × Val)) (k : Int) : Option Val :=
  match m.find? (fun kv => kv.1 == k) with
  | some kv => some kv.2
  | none => none

theorem osz_get_le (l : List Val) (i : Nat) : osz (l.get? i) ≤ lsz l := by
  induction l generalizing i with
  | nil => simp [osz, lsz]
  | cons v vs ih =>
    cases i with
    | zero =>
      simp only [List.get?_cons_zero, osz, lsz]
      omega
    | succ j =>
      have := ih j
      simp only [List.get?_cons_succ, lsz]
      omega

theorem mapIndex_vsz {m : List (Int × Val)} {k : Int} {v : Val}
    (h : mapIndex m k = some v) : vsz v < msz m := by
  induction m with
  | nil => simp [mapIndex, List.find?] at h
  | cons kv rest ih =>
    rw [mapIndex, List.find?] at h
    by_cases hk : (kv.1 == k) = true
    · rw [hk] at h
      simp only [Option.some.injEq] at h
      subst h
      simp [msz]
      omega
    · rw [Bool.not_eq_true] at hk
      rw [hk] at h
      have := ih (by rw [mapIndex]; exact h)
      simp only [msz]
      omega

@[simp] theorem osz_some (v : Val) : osz (some v) = 1 + vsz v := rfl

@[simp] theorem osz_none : osz none = 0 := rfl

theorem osz_mapIndex_le (es : List (Int × Val)) (k : Int) :
    osz (mapIndex es k) ≤ msz es := by
  rcases h : mapIndex es k with _ | v
  · simp [osz]
  · have := mapIndex_vsz h
    simp only [osz]
    omega

/-- Pointer() identity of a nilable value part: nil is address 0; non-nil
addresses are never 0, so identity comparison is Option equality. -/
def pid {α : Type} : Option (Nat × α) → Option Nat
  | none => none
  | some pr => some pr.1

/-- The result of the walk on one pair: updated visit tables, emitted
differences in order, and the ghost event trace. -/
structure Out where
  st : St
  rep : List Report
  evs : List Ev

/-- Outcome of the cycle-check block: return immediately, or continue with a
possibly extended state. -/
inductive CycOut where
  | ret (rep : List Report) (evs : List Ev)
  | cont (st : St) (evs : List Ev)

/-- Identity pair for the cycle check: some iff the kind is pointer, map or
slice and both sides are non-nil (diff.go walk, the kind switch guarding the
cycle check). -/
def cycIds : Val → Val → Option (Nat × Nat)
  | .vPtr _ (some pa), .vPtr _ (some pb) => some (pa.1, pb.1)
  | .vSlice _ (some pa), .vSlice _ (some pb) => some (pa.1, pb.1)
  | .vMap _ (some pa), .vMap _ (some pb) => some (pa.1, pb.1)
  | _, _ => none

/-- diff.go walk, the cycle check: a hit in aSeen returns (unevenly paired
counterparts emit "uneven cycle"); a hit in bSeen under a different A value
emits "uneven cycle"; otherwise the pairing is recorded in both tables. -/
def cycleCheck (st : St) (e : Em) (t : Ty) (va vb : Val) : CycOut :=
  match cycIds va vb with
  | none => CycOut.cont st []
  | some pq =>
    let avis : Visit := ⟨pq.1, t⟩
    let bvis : Visit := ⟨pq.2, t⟩
    match lookupTab st.aSeen avis with
    | some bSeenV =>
      if bSeenV ≠ bvis then
        CycOut.ret (emitf e Msg.unevenCycle) [Ev.lookA avis (some bSeenV)]
      else
        CycOut.ret [] [Ev.lookA avis (some bSeenV)]
    | none =>
      match lookupTab st.bSeen bvis with
      | some x =>
        CycOut.ret (emitf e Msg.unevenCycle)
          [Ev.lookA avis none, Ev.lookB bvis (some x)]
      | none =>
        CycOut.cont
          ⟨(avis, bvis) :: st.aSeen, (bvis, avis) :: st.bSeen⟩
          [Ev.lookA avis none, Ev.lookB bvis none,
            Ev.insA avis bvis, Ev.insB bvis avis]

/-- diff.go, (*differ).eqtest. -/
def eqtest {β : Type} [DecidableEq β] (e : Em) (a b : β) (wantType : Bool) :
    List Report :=
  if a = b then [] else emitf e (Msg.vneq e.av e.bv wantType)

/-- diff.go, (*differ).emitPointers. -/
def emitPointers (e : Em) (wantType : Bool) : List Report :=
  emitf e (Msg.vneq e.av e.bv wantType)

def fmtN (c : Cfg) : Nat := if c.format.isEmpty then 0 else 1

def xfN : Bool → Nat
  | true => 1
  | false => 0

theorem lex3_lt {x1 y1 z1 x2 y2 z2 : Nat}
    (h : x1 < x2 ∨ (x1 = x2 ∧ (y1 < y2 ∨ (y1 = y2 ∧ z1 < z2)))) :
    Prod.Lex (· < ·) (Prod.Lex (· < ·) (· < ·)) (x1, y1, z1) (x2, y2, z2) := by
  rcases h with h | ⟨he, h⟩
  · exact Prod.Lex.left _ _ h
  · subst he
    rcases h with h | ⟨he, h⟩
    · exact Prod.Lex.right _ (Prod.Lex.left _ _ h)
    · subst he
      exact Prod.Lex.right _ (Prod.Lex.right _ h)

theorem fmtN_erase (c : Cfg) : fmtN { c with format := [] } = 0 := by
  simp [fmtN]

theorem lookupFmt_ne_nil {c : Cfg} {t : Ty} {f : Val → Val → String}
    (h : lookupFmt c t = some f) : fmtN c = 1 := by
  rw [lookupFmt] at h
  rcases hf : c.format.find? (fun x => x.1 == t) with _ | x
  · rw [hf] at h; exact absurd h (by simp)
  · have : c.format ≠ [] := by
      intro hnil
      rw [hnil] at hf
      simp [List.find?] at hf
    simp [fmtN, List.isEmpty_iff, this]

mutual

/-- diff.go, (*differ).walk (current variant, diff.go:1016): validity and
type checks, cycle check, transform hook, then the rest of the walk. -/
def walk (c : Cfg) (st : St) (e : Em) (av bv : Option Val)
    (xformOk wantType : Bool) : Out :=
  let e := e.set av bv
  match av, bv with
  | none, none => ⟨st, [], []⟩
  | none, some vb => ⟨st, emitf e (Msg.vneq none (some vb) true), []⟩
  | some va, none => ⟨st, emitf e (Msg.vneq (some va) none true), []⟩
  | some va, some vb =>
    let t := va.ty
    if t ≠ vb.ty then ⟨st, emitf e (Msg.vneq (some va) (some vb) true), []⟩
    else
      match cycleCheck st e t va vb with
      | CycOut.ret rep evs => ⟨st, rep, evs⟩
      | CycOut.cont st1 evs0 =>
        match lookupXf c t with
        | some xf =>
          if hxo : xformOk then
            let ax := some (xf.f va)
            let bx := some (xf.f vb)
            let o1 := walk c st1 (e.subf t "(transformed)") ax bx false true
            if ¬ c.showOrig then
              ⟨o1.st, o1.rep, evs0 ++ o1.evs⟩
            else
              let e2 := e.subf t "(original)"
              if equal c (some va) (some vb) false then
                ⟨o1.st, o1.rep ++ emitf e2 Msg.origEqual, evs0 ++ o1.evs⟩
              else
                let o2 := walkRest c o1.st (e2.set (some va) (some vb)) va vb
                  t xformOk wantType
                ⟨o2.st, o1.rep ++ o2.rep, evs0 ++ o1.evs ++ o2.evs⟩
          else
            let o := walkRest c st1 e va vb t xformOk wantType
            ⟨o.st, o.rep, evs0 ++ o.evs⟩
        | none =>
          let o := walkRest c st1 e va vb t xformOk wantType
          ⟨o.st, o.rep, evs0 ++ o.evs⟩
termination_by (osz av + osz bv, 8 * fmtN c + 4 * xfN xformOk + 1, 0)
decreasing_by
  · apply lex3_lt
    have h1 := xf.bounded va
    have h2 := xf.bounded vb
    rw [hxo]
    simp only [osz, xfN, true_and]
    omega
  · apply lex3_lt
    rw [hxo]
    simp only [osz, xfN, true_and]
    omega
  · apply lex3_lt
    simp only [osz, xfN, true_and]
    omega
  · apply lex3_lt
    simp only [osz, xfN, true_and]
    omega

/-- diff.go, (*differ).walk continued: the format hook check. The outer
isEmpty test is a termination device only: with an empty format table the
lookup below is always none, so both paths dispatch on the kind. -/
def walkRest (c : Cfg) (st : St) (e : Em) (va vb : Val)
    (t : Ty) (xformOk wantType : Bool) : Out :=
  if hfe : c.format.isEmpty then walkKind c st e va vb t xformOk wantType
  else
    match lookupFmt c t with
    | some ff =>
      if equal c (some va) (some vb) false then ⟨st, [], []⟩
      else ⟨st, emitf e (Msg.hooked (ff va vb)), []⟩
    | none => walkKind c st e va vb t xformOk wantType
termination_by (osz (some va) + osz (some vb), 8 * fmtN c + 4 * xfN xformOk, 1)
decreasing_by
  · apply lex3_lt
    simp only [osz, xfN, true_and]
    omega
  · apply lex3_lt
    have hfp : fmtN c = 1 := by
      simp [fmtN, hfe]
    simp only [osz, xfN, true_and]
    omega
  · apply lex3_lt
    simp only [osz, xfN, true_and]
    omega

/-- diff.go, (*differ).walk continued: the kind dispatch. -/
def walkKind (c : Cfg) (st : St) (e : Em) (va vb : Val)
    (t : Ty) (xformOk wantType : Bool) : Out :=
    match va, vb with
    | Val.vArr _ la, Val.vArr _ lb =>
      seqDiff c st e t la lb
    | Val.vStruct _ fas, Val.vStruct _ fbs =>
      walkFields c st e t fas fbs
    | Val.vFunc fa, Val.vFunc fb =>
      if c.equalFuncs then ⟨st, [], []⟩
      else if fa.isSome || fb.isSome then ⟨st, emitPointers e wantType, []⟩
      else ⟨st, [], []⟩
    | Val.vMap _ ma, Val.vMap _ mb =>
      if hnil : ma.isNone ≠ mb.isNone then ⟨st, emitPointers e wantType, []⟩
      else if pid ma = pid mb then ⟨st, [], []⟩
      else
        match ma, mb with
        | some pa, some pb =>
          let o := walkMapKeys c st e t pa.2 pb.2 (sortedKeys [pa.2, pb.2])
          ⟨o.st, o.rep, Ev.descend ⟨pa.1, t⟩ ⟨pb.1, t⟩ :: o.evs⟩
        | _, _ => ⟨st, [], []⟩ -- unreachable: equal nilness and distinct identities
    | Val.vPtr _ pa, Val.vPtr _ pb =>
      if pid pa = pid pb then ⟨st, [], []⟩
      else if hnil : pa.isNone ≠ pb.isNone then
        ⟨st, emitf e (Msg.vneq (some va) (some vb) wantType), []⟩
      else
        match pa, pb with
        | some qa, some qb =>
          let o := walk c st e (some qa.2) (some qb.2) true wantType
          ⟨o.st, o.rep, Ev.descend ⟨qa.1, t⟩ ⟨qb.1, t⟩ :: o.evs⟩
        | _, _ => ⟨st, [], []⟩ -- unreachable: equal nilness and distinct identities
    | Val.vSlice _ sa, Val.vSlice _ sb =>
      if hnil : sa.isNone ≠ sb.isNone then ⟨st, emitPointers e wantType, []⟩
      else
        match sa, sb with
        | none, none => ⟨st, [], []⟩ -- lengths 0 and identities both nil
        | some qa, some qb =>
          if qa.2.length = qb.2.length ∧ qa.1 = qb.1 then ⟨st, [], []⟩
          else
            let o := seqDiff c st e t qa.2 qb.2
            ⟨o.st, o.rep, Ev.descend ⟨qa.1, t⟩ ⟨qb.1, t⟩ :: o.evs⟩
        | _, _ => ⟨st, [], []⟩ -- unreachable: nilness already equal
    | Val.vInt a2, Val.vInt b2 => ⟨st, eqtest e a2 b2 wantType, []⟩
    | Val.vBool a2, Val.vBool b2 => ⟨st, eqtest e a2 b2 wantType, []⟩
    | Val.vStr a2, Val.vStr b2 => ⟨st, stringDiff c e a2 b2, []⟩
    | _, _ => ⟨st, [], []⟩ -- unreachable: shape mismatch returns at the type check
termination_by (osz (some va) + osz (some vb), 8 * fmtN c + 4 * xfN xformOk, 0)
decreasing_by
  · apply lex3_lt
    simp only [osz, vsz, lsz, true_and]
    omega
  · apply lex3_lt
    simp only [osz, vsz, fsz, true_and]
    omega
  · apply lex3_lt
    simp only [osz, vsz, msz, true_and]
    omega
  · apply lex3_lt
    simp only [osz, vsz, true_and]
    omega
  · apply lex3_lt
    simp only [osz, vsz, lsz, true_and]
    omega

/-- diff.go, (*differ).equal: a fresh side session with empty visit tables,
no format hooks, and a counting sink. -/
def equal (c : Cfg) (av bv : Option Val) (xformOk : Bool) : Bool :=
  (walk { c with format := [] } emptySt emptyEm av bv xformOk true).rep.isEmpty
termination_by (osz av + osz bv, 4 * xfN xformOk + 2, 0)
decreasing_by
  · apply lex3_lt
    rw [fmtN_erase]
    simp only [true_and, xfN]
    omega

/-- Struct case of the walk: one recursive call per field in declaration
order. -/
def walkFields (c : Cfg) (st : St) (e : Em) (t : Ty) :
    List (String × Val) → List (String × Val) → Out
  | [], _ => ⟨st, [], []⟩
  | _ :: _, [] => ⟨st, [], []⟩
  | fa :: fas, fb :: fbs =>
    let o1 := walk c st (e.subf t ("." ++ fa.1)) (some fa.2) (some fb.2)
      true false
    let o2 := walkFields c o1.st e t fas fbs
    ⟨o2.st, o1.rep ++ o2.rep, o1.evs ++ o2.evs⟩
termination_by fas fbs => (fsz fas + fsz fbs + 1, 0, 0)
decreasing_by
  · apply lex3_lt
    simp only [osz, fsz]
    omega
  · apply lex3_lt
    simp only [fsz, true_and]
    omega

/-- Map case of the walk: for each key of the sorted union, recurse when
present in both, report (removed) when only in A, (added) when only in B. -/
def walkMapKeys (c : Cfg) (st : St) (e : Em) (t : Ty)
    (ea eb : List (Int × Val)) : List Int → Out
  | [] => ⟨st, [], []⟩
  | k :: ks =>
    let esub := (e.subf t ("[" ++ toString k ++ "]")).set (mapIndex ea k)
      (mapIndex eb k)
    let o1 : Out :=
      match hma : mapIndex ea k, hmb : mapIndex eb k with
      | some va2, some vb2 => walk c st esub (some va2) (some vb2) true false
      | some _, none => ⟨st, emitf esub Msg.removed, []⟩
      | none, some vb2 => ⟨st, emitf esub (Msg.added vb2), []⟩
      | none, none => ⟨st, [], []⟩ -- unreachable: k is in the key union
    let o2 := walkMapKeys c o1.st e t ea eb ks
    ⟨o2.st, o1.rep ++ o2.rep, o1.evs ++ o2.evs⟩
termination_by ks => (msz ea + msz eb + 1, 0, ks.length)
decreasing_by
  · apply lex3_lt
    have h1 := mapIndex_vsz hma
    have h2 := mapIndex_vsz hmb
    simp only [osz]
    omega
  · apply lex3_lt
    simp only [List.length_cons, true_and]
    omega

/-- diff.go, (*differ).seqDiff: obtain the edit script through the sequence
diff module using deep equality of items (itemEq), then process entries. -/
def seqDiff (c : Cfg) (st : St) (e : Em) (t : Ty) (la lb : List Val) : Out :=
  let m := eqMat c la lb
  seqEntries c st e t la lb
    (Diffseq.Diff la.length lb.length
      (fun ai bi => (m.getD ai []).getD bi false))
termination_by (lsz la + lsz lb + 4, 0, 0)
decreasing_by
  · apply lex3_lt
    omega
  · apply lex3_lt
    omega

/-- Per-entry processing of seqDiff: an entry with ranges of equal length
recurses once per position; other entries emit one difference showing the
short-rendered subranges. -/
def seqEntries (c : Cfg) (st : St) (e : Em) (t : Ty) (la lb : List Val) :
    List Diffseq.Edit → Out
  | [] => ⟨st, [], []⟩
  | ed :: rest =>
    if ed.a1 - ed.a0 = ed.b1 - ed.b0 then
      let o1 := walkPositions c st e t la lb ed.a0 ed.b0 (ed.a1 - ed.a0)
      let o2 := seqEntries c o1.st e t la lb rest
      ⟨o2.st, o1.rep ++ o2.rep, o1.evs ++ o2.evs⟩
    else
      let ee := e.subf t ("[" ++ toString ed.a0 ++ ":" ++ toString ed.a1
        ++ "]")
      let rep := emitf ee (Msg.rangeNeq t (Diffseq.slice la ed.a0 ed.a1)
        (Diffseq.slice lb ed.b0 ed.b1))
      let o2 := seqEntries c st e t la lb rest
      ⟨o2.st, rep ++ o2.rep, o2.evs⟩
termination_by edits => (lsz la + lsz lb + 2, 0, edits.length)
decreasing_by
  · apply lex3_lt
    omega
  · apply lex3_lt
    simp only [List.length_cons, true_and]
    omega
  · apply lex3_lt
    simp only [List.length_cons, true_and]
    omega

/-- Element-by-element recursion for a same-length replace entry. -/
def walkPositions (c : Cfg) (st : St) (e : Em) (t : Ty) (la lb : List Val)
    (a0 b0 : Nat) : Nat → Out
  | 0 => ⟨st, [], []⟩
  | Nat.succ n =>
    let o1 := walk c st (e.subf t ("[" ++ toString a0 ++ "]")) (la.get? a0)
      (lb.get? b0) true false
    let o2 := walkPositions c o1.st e t la lb (a0 + 1) (b0 + 1) n
    ⟨o2.st, o1.rep ++ o2.rep, o1.evs ++ o2.evs⟩
termination_by n => (lsz la + lsz lb + 1, 0, n)
decreasing_by
  · apply lex3_lt
    have h1 := osz_get_le la a0
    have h2 := osz_get_le lb b0
    omega
  · apply lex3_lt
    omega

/-- One row of the item-equality matrix: itemEq of a fixed A item against
every B item. -/
def eqRow (c : Cfg) (va : Val) : List Val → List Bool
  | [] => []
  | wb :: lb => equal c (some va) (some wb) true :: eqRow c va lb
termination_by lb => (vsz va + lsz lb + 2, 0, 0)
decreasing_by
  · apply lex3_lt
    simp only [osz, lsz, true_and]
    omega
  · apply lex3_lt
    simp only [lsz, true_and]
    omega

/-- The item-equality matrix for seqDiff, evaluating
(*differ).itemEq = equal with transforms permitted on every index pair. -/
def eqMat (c : Cfg) : List Val → List Val → List (List Bool)
  | [], _ => []
  | va :: lc, lb => eqRow c va lb :: eqMat c lc lb
termination_by lc lb => (lsz lc + lsz lb + 3, 0, 0)
decreasing_by
  · apply lex3_lt
    simp only [lsz, true_and]
    omega
  · apply lex3_lt
    simp only [lsz, true_and]
    omega

end

/-- diff.go, addressable: a fresh addressable copy. Copying a Go value
copies only its header, preserving every pointer identity inside it, so on
this model it is the identity function. -/
def addressable (v : Option Val) : Option Val := v

/-- diff.go, (*differ).itemEq: deep equality of the two indexed items,
with transforms permitted. -/
def itemEq (c : Cfg) (a b : List Val) (ai bi : Nat) : Bool :=
  equal c (a.get? ai) (b.get? bi) true

/-- diff.go, (*differ).each (invoked by Each, Log, Test after option
assembly): walk addressable copies of the two values in a fresh session. -/
def eachOut (c : Cfg) (a b : Option Val) : Out :=
  walk c emptySt emptyEm (addressable a) (addressable b) true true

/-- The differences Each reports through the sink. -/
def each (c : Cfg) (a b : Option Val) : List Report :=
  (eachOut c a b).rep

/-!
Formatter (format.go, current variant): writeTo renders a value as a token
stream; each token is one write of the source, and the output of a recursive
writeTo call is grouped into one sub token (for container elements, the
element's writes are grouped into one sub). The indent and tabwriter
wrappers only add line prefixes and column padding to the written text and
are not modelled. String quoting is modelled without escape sequences.
-/

inductive Tok where
  | text (s : String)
  | typeName (s : String)
  | scalarTok (s : String)
  | ellipsisTok (s : String)
  | sub (ts : List Tok)

/-- Go %q without escaping. -/
def goQuote (s : String) : String := "\"" ++ s ++ "\""

/-- Identity recorded by the formatter's own cycle check (format.go,
writeTo): pointer, map and slice values that are non-nil. -/
def visOf : Val → Option Visit
  | .vPtr t (some pr) => some ⟨pr.1, Ty.ptr t⟩
  | .vSlice t (some pr) => some ⟨pr.1, Ty.slice t⟩
  | .vMap t (some pr) => some ⟨pr.1, Ty.mapT t⟩
  | _ => none

/-- format.go, writeTypedNil. -/
def writeTypedNil (t : Ty) (showType : Bool) : List Tok :=
  if showType then
    match t with
    | Ty.func => [Tok.text "(", Tok.typeName (writeType t), Tok.text ")",
        Tok.text "(", Tok.text "nil", Tok.text ")"]
    | Ty.ptr t2 => [Tok.text "(", Tok.typeName (writeType (Ty.ptr t2)),
        Tok.text ")", Tok.text "(", Tok.text "nil", Tok.text ")"]
    | _ => [Tok.typeName (writeType t), Tok.text "(", Tok.text "nil",
        Tok.text ")"]
  else [Tok.text "nil"]

/-- format.go, writeSimple. -/
def writeSimple (s : String) (t : Ty) (showType : Bool) : List Tok :=
  if showType then
    [Tok.typeName (writeType t), Tok.text "(", Tok.scalarTok s, Tok.text ")"]
  else [Tok.scalarTok s]

/-- Kind checks used by the pointer case of the formatter. -/
def isStructTy : Ty → Bool
  | Ty.structT _ => true
  | _ => false

def isPtrTy : Ty → Bool
  | Ty.ptr _ => true
  | _ => false

mutual

/-- format.go, (*formatter).writeTo: invalid values print nil; the seen set
makes a second visit of the same identity print an ellipsis. -/
def writeTo (full : Bool) (allowDepth : Nat) (seen : List Visit)
    (v : Option Val) (wantType : Bool) (depth : Nat) : List Visit × List Tok :=
  match v with
  | none => (seen, [Tok.text "nil"])
  | some va =>
    match visOf va with
    | some vis =>
      if seen.contains vis then (seen, [Tok.ellipsisTok "..."])
      else writeToV full allowDepth (vis :: seen) va wantType depth
    | none => writeToV full allowDepth seen va wantType depth
termination_by (2 * osz v, 2, 0)
decreasing_by
  all_goals apply lex3_lt
  all_goals simp only [osz, true_and]
  all_goals omega

/-- The kind dispatch of writeTo, after the cycle check. -/
def writeToV (full : Bool) (allowDepth : Nat) (seen : List Visit) (va : Val)
    (wantType : Bool) (depth : Nat) : List Visit × List Tok :=
  match va with
  | Val.vArr t es =>
    let tyToks := if wantType then [Tok.typeName (writeType (Ty.arr es.length t))] else []
    if depth ≥ allowDepth ∧ es.length > 0 then
      (seen, tyToks ++ [Tok.ellipsisTok "\x7b...\x7d"])
    else if es.length > 1 then
      let o := fmtElems full allowDepth seen es 0 depth
      (o.1, tyToks ++ [Tok.text "\x7b", Tok.text "\n"] ++ o.2
        ++ [Tok.text "\x7d"])
    else
      match es with
      | [] => (seen, tyToks ++ [Tok.text "\x7b", Tok.text "\x7d"])
      | e0 :: _ =>
        let o := writeTo full allowDepth seen (some e0) false (depth + 1)
        (o.1, tyToks ++ [Tok.text "\x7b", Tok.sub o.2, Tok.text "\x7d"])
  | Val.vStruct name fs =>
    let tyToks := if wantType then [Tok.typeName (writeType (Ty.structT name))] else []
    if depth ≥ allowDepth ∧ fs.length > 0 then
      (seen, tyToks ++ [Tok.ellipsisTok "\x7b...\x7d"])
    else if fs.length > 1 then
      let o := fmtFields full allowDepth seen fs 0 depth
      (o.1, tyToks ++ [Tok.text "\x7b", Tok.text "\n"] ++ o.2
        ++ [Tok.text "\x7d"])
    else
      match fs with
      | [] => (seen, tyToks ++ [Tok.text "\x7b", Tok.text "\x7d"])
      | f0 :: _ =>
        let o := writeTo full allowDepth seen (some f0.2) false (depth + 1)
        (o.1, tyToks ++ [Tok.text "\x7b", Tok.text f0.1, Tok.text ":",
          Tok.sub o.2, Tok.text "\x7d"])
  | Val.vFunc p =>
    match p with
    | none => (seen, writeTypedNil Ty.func wantType)
    | some _ => (seen, [Tok.typeName (writeType Ty.func),
        Tok.text " \x7b...\x7d"])
  | Val.vMap t none => (seen, writeTypedNil (Ty.mapT t) wantType)
  | Val.vMap t (some (_, es)) =>
      let tyToks := if wantType then [Tok.typeName (writeType (Ty.mapT t))] else []
      if depth ≥ allowDepth ∧ es.length > 0 then
        (seen, tyToks ++ [Tok.ellipsisTok "\x7b...\x7d"])
      else if es.length > 1 then
        let o := fmtEntries full allowDepth seen es (sortedKeys [es]) 0 depth
        (o.1, tyToks ++ [Tok.text "\x7b", Tok.text "\n"] ++ o.2
          ++ [Tok.text "\x7d"])
      else
        match sortedKeys [es] with
        | [] => (seen, tyToks ++ [Tok.text "\x7b", Tok.text "\x7d"])
        | k :: _ =>
          -- the key is an int scalar; its writeTo output (writeSimple) is
          -- inlined here
          let ov := writeTo full allowDepth seen (mapIndex es k) false
            (depth + 1)
          (ov.1, tyToks ++ [Tok.text "\x7b",
            Tok.sub [Tok.scalarTok (toString k)], Tok.text ":",
            Tok.sub ov.2, Tok.text "\x7d"])
  | Val.vPtr t none => (seen, writeTypedNil (Ty.ptr t) wantType)
  | Val.vPtr t (some (_, ref)) =>
      let amp : List Tok :=
        if wantType ∨ ¬ isStructTy t then [Tok.text "&"] else []
      let wantType2 := if isPtrTy t then true else wantType
      let o := writeTo full allowDepth seen (some ref) wantType2 depth
      (o.1, amp ++ o.2)
  | Val.vSlice t none => (seen, writeTypedNil (Ty.slice t) wantType)
  | Val.vSlice t (some (_, es)) =>
      let tyToks := if wantType then [Tok.typeName (writeType (Ty.slice t))] else []
      if depth ≥ allowDepth ∧ es.length > 0 then
        (seen, tyToks ++ [Tok.ellipsisTok "\x7b...\x7d"])
      else if es.length > 1 then
        let o := fmtElems full allowDepth seen es 0 depth
        (o.1, tyToks ++ [Tok.text "\x7b", Tok.text "\n"] ++ o.2
          ++ [Tok.text "\x7d"])
      else
        match es with
        | [] => (seen, tyToks ++ [Tok.text "\x7b", Tok.text "\x7d"])
        | e0 :: _ =>
          let o := writeTo full allowDepth seen (some e0) false (depth + 1)
          (o.1, tyToks ++ [Tok.text "\x7b", Tok.sub o.2, Tok.text "\x7d"])
  | Val.vBool b => (seen, writeSimple (toString b) Ty.bool false)
  | Val.vInt n => (seen, writeSimple (toString n) Ty.int wantType)
  | Val.vStr s2 => (seen, writeSimple (goQuote s2) Ty.str false)
termination_by (2 * vsz va + 1, 1, 0)
decreasing_by
  all_goals apply lex3_lt
  all_goals try (have hmi := osz_mapIndex_le es k)
  all_goals simp only [osz_some, vsz, lsz, msz, fsz, true_and]
  all_goals omega

/-- The element loop shared by the array and slice cases: at most 20
elements in short mode, then one ellipsis. -/
def fmtElems (full : Bool) (allowDepth : Nat) (seen : List Visit)
    (es : List Val) (i depth : Nat) : List Visit × List Tok :=
  match es with
  | [] => (seen, [])
  | e0 :: rest =>
    if ¬ full ∧ i ≥ 20 then (seen, [Tok.ellipsisTok "...\n"])
    else
      let o := writeTo full allowDepth seen (some e0) false (depth + 1)
      let o2 := fmtElems full allowDepth o.1 rest (i + 1) depth
      (o2.1, Tok.sub (o.2 ++ [Tok.text ",\n"]) :: o2.2)
termination_by (2 * lsz es + 2, 1, 0)
decreasing_by
  all_goals apply lex3_lt
  all_goals simp only [osz_some, vsz, lsz, true_and]
  all_goals omega

/-- The field loop of the struct case. -/
def fmtFields (full : Bool) (allowDepth : Nat) (seen : List Visit)
    (fs : List (String × Val)) (i depth : Nat) : List Visit × List Tok :=
  match fs with
  | [] => (seen, [])
  | f0 :: rest =>
    if ¬ full ∧ i ≥ 20 then (seen, [Tok.ellipsisTok "...\n"])
    else
      let o := writeTo full allowDepth seen (some f0.2) false (depth + 1)
      let o2 := fmtFields full allowDepth o.1 rest (i + 1) depth
      (o2.1, Tok.sub (Tok.text f0.1 :: Tok.text ":\t" :: o.2
        ++ [Tok.text ",\n"]) :: o2.2)
termination_by (2 * fsz fs + 2, 1, 0)
decreasing_by
  all_goals apply lex3_lt
  all_goals simp only [osz_some, vsz, fsz, true_and]
  all_goals omega

/-- The entry loop of the map case, iterating the sorted keys. -/
def fmtEntries (full : Bool) (allowDepth : Nat) (seen : List Visit)
    (es : List (Int × Val)) (ks : List Int) (i depth : Nat) :
    List Visit × List Tok :=
  match ks with
  | [] => (seen, [])
  | k :: rest =>
    if ¬ full ∧ i ≥ 20 then (seen, [Tok.ellipsisTok "...\n"])
    else
      -- the key is an int scalar; its writeTo output (writeSimple) is
      -- inlined here
      let ov := writeTo full allowDepth seen (mapIndex es k) false (depth + 1)
      let o2 := fmtEntries full allowDepth ov.1 es rest (i + 1) depth
      (o2.1, Tok.sub (Tok.sub [Tok.scalarTok (toString k)] :: Tok.text ":\t"
        :: Tok.sub ov.2 :: [Tok.text ",\n"]) :: o2.2)
termination_by (2 * msz es + 2, 1, ks.length)
decreasing_by
  all_goals apply lex3_lt
  all_goals try (have hmi := osz_mapIndex_le es y)
  all_goals simp only [osz_some, List.length_cons, true_and]
  all_goals omega

end

/-- format.go, formatShort: short mode, depth limit 2. -/
def formatShort (v : Option Val) (wantType : Bool) : List Tok :=
  (writeTo false 2 [] v wantType 1).2

/-- format.go, formatFull: full mode, effectively unlimited depth. -/
def formatFull (v : Option Val) : List Tok :=
  (writeTo true 100000000 [] v true 1).2

/-!
Unfolding lemmas for the walker, used throughout the claim proofs.
-/

/-- Unfolding of walk on a same-typed pair with no cycle-check identity and
no transform hook. -/
theorem walk_step (c : Cfg) (st : St) (e : Em) (va vb : Val) (xo wt : Bool)
    (ht : vb.ty = va.ty) (hcyc : cycIds va vb = none)
    (hxf : lookupXf c va.ty = none) :
    walk c st e (some va) (some vb) xo wt =
      walkRest c st (e.set (some va) (some vb)) va vb va.ty xo wt := by
  rw [walk.eq_def]
  simp only [ht, ne_eq, not_true_eq_false, if_false, cycleCheck, hcyc, hxf,
    List.nil_append]

/-- Unfolding of walk when the cycle check records a fresh pairing. -/
theorem walk_step_fresh (c : Cfg) (st : St) (e : Em) (va vb : Val)
    (xo wt : Bool) (p q : Nat)
    (ht : vb.ty = va.ty) (hcyc : cycIds va vb = some (p, q))
    (ha : lookupTab st.aSeen ⟨p, va.ty⟩ = none)
    (hb : lookupTab st.bSeen ⟨q, va.ty⟩ = none)
    (hxf : lookupXf c va.ty = none) :
    walk c st e (some va) (some vb) xo wt =
      (let st1 : St := ⟨(⟨p, va.ty⟩, ⟨q, va.ty⟩) :: st.aSeen,
        (⟨q, va.ty⟩, ⟨p, va.ty⟩) :: st.bSeen⟩
      let o := walkRest c st1 (e.set (some va) (some vb)) va vb va.ty xo wt
      ⟨o.st, o.rep, [Ev.lookA ⟨p, va.ty⟩ none, Ev.lookB ⟨q, va.ty⟩ none,
        Ev.insA ⟨p, va.ty⟩ ⟨q, va.ty⟩, Ev.insB ⟨q, va.ty⟩ ⟨p, va.ty⟩]
        ++ o.evs⟩) := by
  rw [walk.eq_def]
  simp only [ht, ne_eq, not_true_eq_false, if_false, cycleCheck, hcyc, ha, hb,
    hxf]

/-- Unfolding of walk when the A visit table already holds the identity. -/
theorem walk_step_hitA (c : Cfg) (st : St) (e : Em) (va vb : Val)
    (xo wt : Bool) (p q : Nat) (w : Visit)
    (ht : vb.ty = va.ty) (hcyc : cycIds va vb = some (p, q))
    (ha : lookupTab st.aSeen ⟨p, va.ty⟩ = some w) :
    walk c st e (some va) (some vb) xo wt =
      ⟨st, if w ≠ ⟨q, va.ty⟩
        then emitf (e.set (some va) (some vb)) Msg.unevenCycle else [],
        [Ev.lookA ⟨p, va.ty⟩ (some w)]⟩ := by
  rw [walk.eq_def]
  simp only [ht, ne_eq, not_true_eq_false, if_false, cycleCheck, hcyc, ha]
  by_cases hw : w = ⟨q, va.ty⟩ <;> simp [hw]

/-- Unfolding of walkRest when no format hook matches the type. -/
theorem walkRest_nofmt (c : Cfg) (st : St) (e : Em) (va vb : Val) (t : Ty)
    (xo wt : Bool) (hfm : lookupFmt c t = none) :
    walkRest c st e va vb t xo wt = walkKind c st e va vb t xo wt := by
  by_cases hfe : c.format.isEmpty = true
  · rw [walkRest.eq_def, dif_pos hfe]
  · rw [walkRest.eq_def, dif_neg hfe, hfm]

/-- Unfolding of walkRest at a matching format hook. -/
theorem walkRest_fmt (c : Cfg) (st : St) (e : Em) (va vb : Val) (t : Ty)
    (xo wt : Bool) (ff : Val → Val → String)
    (hfm : lookupFmt c t = some ff) :
    walkRest c st e va vb t xo wt =
      if equal c (some va) (some vb) false then ⟨st, [], []⟩
      else ⟨st, emitf e (Msg.hooked (ff va vb)), []⟩ := by
  have hfe : ¬ c.format.isEmpty = true := by
    rcases hn : c.format with _ | ⟨x, l⟩
    · rw [lookupFmt, hn] at hfm
      simp [List.find?] at hfm
    · simp [hn]
  rw [walkRest.eq_def, dif_neg hfe, hfm]

theorem walkKind_int (c : Cfg) (st : St) (e : Em) (a b : Int) (t : Ty)
    (xo wt : Bool) :
    walkKind c st e (Val.vInt a) (Val.vInt b) t xo wt =
      ⟨st, eqtest e a b wt, []⟩ := by
  simp only [walkKind.eq_def]

theorem walkKind_bool (c : Cfg) (st : St) (e : Em) (a b : Bool) (t : Ty)
    (xo wt : Bool) :
    walkKind c st e (Val.vBool a) (Val.vBool b) t xo wt =
      ⟨st, eqtest e a b wt, []⟩ := by
  simp only [walkKind.eq_def]

theorem walkKind_str (c : Cfg) (st : St) (e : Em) (a b : String) (t : Ty)
    (xo wt : Bool) :
    walkKind c st e (Val.vStr a) (Val.vStr b) t xo wt =
      ⟨st, stringDiff c e a b, []⟩ := by
  simp only [walkKind.eq_def]

theorem walkKind_func (c : Cfg) (st : St) (e : Em) (fa fb : Option Nat)
    (t : Ty) (xo wt : Bool) :
    walkKind c st e (Val.vFunc fa) (Val.vFunc fb) t xo wt =
      if c.equalFuncs then ⟨st, [], []⟩
      else if fa.isSome || fb.isSome then ⟨st, emitPointers e wt, []⟩
      else ⟨st, [], []⟩ := by
  simp only [walkKind.eq_def]

theorem walkKind_arr (c : Cfg) (st : St) (e : Em) (ta tb : Ty)
    (la lb : List Val) (t : Ty) (xo wt : Bool) :
    walkKind c st e (Val.vArr ta la) (Val.vArr tb lb) t xo wt =
      seqDiff c st e t la lb := by
  simp only [walkKind.eq_def]

theorem walkKind_struct (c : Cfg) (st : St) (e : Em) (na nb : String)
    (fas fbs : List (String × Val)) (t : Ty) (xo wt : Bool) :
    walkKind c st e (Val.vStruct na fas) (Val.vStruct nb fbs) t xo wt =
      walkFields c st e t fas fbs := by
  simp only [walkKind.eq_def]

theorem walkKind_ptr_pideq (c : Cfg) (st : St) (e : Em) (ta tb : Ty)
    (pa pb : Option (Nat × Val)) (t : Ty) (xo wt : Bool)
    (h : pid pa = pid pb) :
    walkKind c st e (Val.vPtr ta pa) (Val.vPtr tb pb) t xo wt =
      ⟨st, [], []⟩ := by
  simp only [walkKind.eq_def, h, if_pos]

theorem walkKind_ptr_some (c : Cfg) (st : St) (e : Em) (ta tb : Ty)
    (qa qb : Nat × Val) (t : Ty) (xo wt : Bool) (h : qa.1 ≠ qb.1) :
    walkKind c st e (Val.vPtr ta (some qa)) (Val.vPtr tb (some qb)) t xo wt =
      (let o := walk c st e (some qa.2) (some qb.2) true wt
      ⟨o.st, o.rep, Ev.descend ⟨qa.1, t⟩ ⟨qb.1, t⟩ :: o.evs⟩) := by
  have hp : pid (some qa) ≠ pid (some qb) := by
    simp only [pid, ne_eq, Option.some.injEq]
    exact h
  simp only [walkKind.eq_def, hp, if_neg, Option.isNone_some, ne_eq,
    not_true_eq_false, not_false_eq_true, dite_false, if_false]

theorem walkKind_map_pideq (c : Cfg) (st : St) (e : Em) (ta tb : Ty)
    (ma mb : Option (Nat × List (Int × Val))) (t : Ty) (xo wt : Bool)
    (h : pid ma = pid mb) :
    walkKind c st e (Val.vMap ta ma) (Val.vMap tb mb) t xo wt =
      ⟨st, [], []⟩ := by
  have hn : ma.isNone = mb.isNone := by
    cases ma <;> cases mb <;> simp_all [pid]
  simp only [walkKind.eq_def, hn, ne_eq, not_true_eq_false, not_false_eq_true,
    dite_false, h, if_pos]

theorem walkKind_map_some (c : Cfg) (st : St) (e : Em) (ta tb : Ty)
    (pa pb : Nat × List (Int × Val)) (t : Ty) (xo wt : Bool)
    (h : pa.1 ≠ pb.1) :
    walkKind c st e (Val.vMap ta (some pa)) (Val.vMap tb (some pb)) t xo wt =
      (let o := walkMapKeys c st e t pa.2 pb.2 (sortedKeys [pa.2, pb.2])
      ⟨o.st, o.rep, Ev.descend ⟨pa.1, t⟩ ⟨pb.1, t⟩ :: o.evs⟩) := by
  have hp : pid (some pa) ≠ pid (some pb) := by
    simp only [pid, ne_eq, Option.some.injEq]
    exact h
  simp only [walkKind.eq_def, hp, Option.isNone_some, ne_eq,
    not_true_eq_false, not_false_eq_true, dite_false, if_false]

theorem walkKind_slice_self (c : Cfg) (st : St) (e : Em) (ta tb : Ty)
    (sa : Option (Nat × List Val)) (t : Ty) (xo wt : Bool) :
    walkKind c st e (Val.vSlice ta sa) (Val.vSlice tb sa) t xo wt =
      ⟨st, [], []⟩ := by
  cases sa with
  | none =>
    simp only [walkKind.eq_def, Option.isNone_none, ne_eq, not_true_eq_false,
      not_false_eq_true, dite_false]
  | some qa =>
    simp only [walkKind.eq_def, Option.isNone_some, ne_eq, not_true_eq_false,
      not_false_eq_true, dite_false]
    simp

theorem walkKind_slice_some (c : Cfg) (st : St) (e : Em) (ta tb : Ty)
    (qa qb : Nat × List Val) (t : Ty) (xo wt : Bool)
    (h : ¬ (qa.2.length = qb.2.length ∧ qa.1 = qb.1)) :
    walkKind c st e (Val.vSlice ta (some qa)) (Val.vSlice tb (some qb)) t
        xo wt =
      (let o := seqDiff c st e t qa.2 qb.2
      ⟨o.st, o.rep, Ev.descend ⟨qa.1, t⟩ ⟨qb.1, t⟩ :: o.evs⟩) := by
  simp only [walkKind.eq_def, Option.isNone_some, ne_eq, not_true_eq_false,
    not_false_eq_true, dite_false, h, if_neg]


/-- C2: for every pair of sequences and every item predicate, the produced
edit entries are strictly increasing and non-overlapping in both index
spaces; when the predicate relates only genuinely equal items, applying the
entries to A (replacing each A-range by the corresponding B-range and
copying the unchanged regions in between) reconstructs B exactly. The
reconstruction half needs the soundness hypothesis on the predicate; the
literal claim without it is refuted by the counterexample. -/
theorem C2_edit_script {α : Type} (A B : List α) (eqp : Nat → Nat → Bool) :
    Diffseq.EditsLB 0 0 (Diffseq.Diff A.length B.length eqp) ∧
    ((∀ i j, eqp i j = true → A.get? i = B.get? j) →
      Diffseq.applyEdits A B (Diffseq.Diff A.length B.length eqp) = B) :=
  ⟨Diffseq.Diff_mono _ _ _, fun himp => (Diffseq.Diff_correct A B eqp himp).1⟩

/-- Witness for C2: a sound predicate on A = [10, 20], B = [20]. -/
theorem C2_edit_script_witness :
    (∀ i j : Nat, (i == 1 && j == 0) = true →
      ([10, 20] : List Int).get? i = ([20] : List Int).get? j) ∧
    Diffseq.EditsLB 0 0 (Diffseq.Diff ([10, 20] : List Int).length
      ([20] : List Int).length (fun i j => i == 1 && j == 0)) ∧
    Diffseq.applyEdits ([10, 20] : List Int) [20]
      (Diffseq.Diff ([10, 20] : List Int).length ([20] : List Int).length
        (fun i j => i == 1 && j == 0)) = [20] := by
  have himp : ∀ i j : Nat, (i == 1 && j == 0) = true →
      ([10, 20] : List Int).get? i = ([20] : List Int).get? j := by
    intro i j h
    simp only [Bool.and_eq_true, beq_iff_eq] at h
    rw [h.1, h.2]
    rfl
  exact ⟨himp, (C2_edit_script [10, 20] [20] (fun i j => i == 1 && j == 0)).1,
    (C2_edit_script [10, 20] [20] (fun i j => i == 1 && j == 0)).2 himp⟩

/-- Counterexample to the literal universal reading of C2: with an item
predicate that declares every pair equal, the script for A = [1], B = [2]
is empty, so applying it yields [1], not B. -/
theorem C2_edit_script_counterexample :
    Diffseq.applyEdits ([1] : List Int) [2]
        (Diffseq.Diff ([1] : List Int).length ([2] : List Int).length
          (fun _ _ => true)) = [1] ∧ ([1] : List Int) ≠ [2] := by
  constructor
  · have h1 : ([1] : List Int).length = 1 := rfl
    have h2 : ([2] : List Int).length = 1 := rfl
    rw [h1, h2, Diffseq.diff_all_eq (fun _ _ => true) 1 (fun k _ => rfl)]
    rfl
  · simp


/-!
C1: reflexivity of the comparison under the default options.
-/

mutual

/-- No non-nil func value at a directly compared position: the walker
descends into array elements and struct fields unconditionally, while
pointers, slices and maps compared against themselves stop at the identity
checks, so only these positions can reach the Func case. -/
def funcFreeV : Val → Bool
  | .vFunc p => p.isNone
  | .vArr _ es => funcFreeL es
  | .vStruct _ fs => funcFreeF fs
  | _ => true

def funcFreeL : List Val → Bool
  | [] => true
  | v :: vs => funcFreeV v && funcFreeL vs

def funcFreeF : List (String × Val) → Bool
  | [] => true
  | fv :: vs => funcFreeV fv.2 && funcFreeF vs

end

/-- A session state all of whose recorded pairings are self-pairings, as
arise when a value is compared against itself. -/
def SelfSt (st : St) : Prop :=
  st.bSeen = st.aSeen ∧ ∀ pr ∈ st.aSeen, pr.1 = pr.2

theorem selfSt_empty : SelfSt emptySt :=
  ⟨rfl, fun pr h => absurd h (List.not_mem_nil pr)⟩

theorem vsz_pos (v : Val) : 1 ≤ vsz v := by
  cases v with
  | vInt a => exact le_refl 1
  | vBool b => exact le_refl 1
  | vStr s2 => exact le_refl 1
  | vFunc p => exact le_refl 1
  | vPtr t p => cases p <;> simp only [vsz] <;> omega
  | vSlice t p => cases p <;> simp only [vsz] <;> omega
  | vMap t p => cases p <;> simp only [vsz] <;> omega
  | vArr t es => simp only [vsz]; omega
  | vStruct n fs => simp only [vsz]; omega

theorem vsz_le_lsz {x : Val} {es : List Val} (h : x ∈ es) : vsz x ≤ lsz es := by
  induction es with
  | nil => exact absurd h (List.not_mem_nil x)
  | cons a as ihe =>
    rcases List.mem_cons.mp h with h2 | h2
    · subst h2
      simp only [lsz]
      omega
    · have := ihe h2
      simp only [lsz]
      omega

theorem vsz_le_fsz {f : String × Val} {fs : List (String × Val)} (h : f ∈ fs) :
    vsz f.2 ≤ fsz fs := by
  induction fs with
  | nil => exact absurd h (List.not_mem_nil f)
  | cons a as ihe =>
    rcases List.mem_cons.mp h with h2 | h2
    · subst h2
      simp only [fsz]
      omega
    · have := ihe h2
      simp only [fsz]
      omega

theorem funcFreeL_mem {x : Val} {es : List Val} (hm : x ∈ es)
    (h : funcFreeL es = true) : funcFreeV x = true := by
  induction es with
  | nil => exact absurd hm (List.not_mem_nil x)
  | cons a as ihe =>
    rw [funcFreeL, Bool.and_eq_true] at h
    rcases List.mem_cons.mp hm with h2 | h2
    · subst h2
      exact h.1
    · exact ihe h2 h.2

theorem funcFreeF_mem {f : String × Val} {fs : List (String × Val)}
    (hm : f ∈ fs) (h : funcFreeF fs = true) : funcFreeV f.2 = true := by
  induction fs with
  | nil => exact absurd hm (List.not_mem_nil f)
  | cons a as ihe =>
    rw [funcFreeF, Bool.and_eq_true] at h
    rcases List.mem_cons.mp hm with h2 | h2
    · subst h2
      exact h.1
    · exact ihe h2 h.2

theorem lookupTab_mem {tab : Table} {k w : Visit}
    (h : lookupTab tab k = some w) : (k, w) ∈ tab := by
  induction tab with
  | nil => simp [lookupTab, List.find?] at h
  | cons x rest ihe =>
    rw [lookupTab, List.find?] at h
    by_cases hk : (x.1 == k) = true
    · rw [hk] at h
      simp only [Option.some.injEq] at h
      have hx : x = (k, w) := by
        have h1 : x.1 = k := beq_iff_eq.mp hk
        have h2 : x.2 = w := h
        rw [← h1, ← h2]
      rw [← hx]
      exact List.mem_cons_self x rest
    · rw [Bool.not_eq_true] at hk
      rw [hk] at h
      have := ihe (by rw [lookupTab]; exact h)
      exact List.mem_cons_of_mem x this

theorem lookupTab_self {tab : Table} (hs : ∀ pr ∈ tab, pr.1 = pr.2)
    {k w : Visit} (h : lookupTab tab k = some w) : w = k := by
  have hm := lookupTab_mem h
  have := hs (k, w) hm
  exact this.symm

theorem lookupXf_default (t : Ty) : lookupXf defaultCfg t = none := rfl

theorem lookupFmt_default (t : Ty) : lookupFmt defaultCfg t = none := rfl

theorem equal_defaultCfg (av bv : Option Val) (xo : Bool) :
    equal defaultCfg av bv xo =
      (walk defaultCfg emptySt emptyEm av bv xo true).rep.isEmpty := by
  rw [equal.eq_def]
  rfl

theorem eqRow_get? (c : Cfg) (v : Val) :
    ∀ (lb : List Val) (j : Nat), (eqRow c v lb).get? j =
      (lb.get? j).map (fun w => equal c (some v) (some w) true) := by
  intro lb
  induction lb with
  | nil =>
    intro j
    rw [eqRow.eq_def]
    simp only [List.get?_nil, Option.map_none']
  | cons w ws ihe =>
    intro j
    rw [eqRow.eq_def]
    cases j with
    | zero => simp only [List.get?_cons_zero, Option.map_some']
    | succ j2 =>
      simp only [List.get?_cons_succ]
      exact ihe j2

theorem eqMat_get? (c : Cfg) :
    ∀ (la lb : List Val) (i : Nat), (eqMat c la lb).get? i =
      (la.get? i).map (fun v => eqRow c v lb) := by
  intro la
  induction la with
  | nil =>
    intro lb i
    rw [eqMat.eq_def]
    simp only [List.get?_nil, Option.map_none']
  | cons v vs ihe =>
    intro lb i
    rw [eqMat.eq_def]
    cases i with
    | zero => simp only [List.get?_cons_zero, Option.map_some']
    | succ i2 =>
      simp only [List.get?_cons_succ]
      exact ihe lb i2

theorem eqMat_diag (c : Cfg) (la : List Val)
    (h : ∀ x ∈ la, equal c (some x) (some x) true = true) :
    ∀ k, k < la.length →
      ((eqMat c la la).getD k []).getD k false = true := by
  intro k hk
  rcases hx : la.get? k with _ | x
  · rw [List.get?_eq_none] at hx
    omega
  · have hmem : x ∈ la := List.get?_mem hx
    rw [List.getD_eq_get?, List.getD_eq_get?, eqMat_get?, hx, Option.map_some',
      Option.getD_some, eqRow_get?, hx, Option.map_some', Option.getD_some]
    exact h x hmem

theorem seqDiff_self (c : Cfg) (st : St) (e : Em) (t : Ty) (la : List Val)
    (h : ∀ x ∈ la, equal c (some x) (some x) true = true) :
    seqDiff c st e t la la = ⟨st, [], []⟩ := by
  simp only [seqDiff.eq_def]
  rw [Diffseq.diff_all_eq _ la.length (eqMat_diag c la h)]
  rw [seqEntries.eq_def]


theorem selfSt_push {st : St} (hst : SelfSt st) (k : Visit) :
    SelfSt ⟨(k, k) :: st.aSeen, (k, k) :: st.bSeen⟩ := by
  constructor
  · simp only
    rw [hst.1]
  · intro pr hpr
    rcases List.mem_cons.mp hpr with h2 | h2
    · rw [h2]
    · exact hst.2 pr h2

/-- Struct fields of a value compared against itself walk silently when each
field does. -/
theorem walkFields_self :
    ∀ (fs : List (String × Val)) (st : St) (e : Em) (t : Ty),
      (∀ f ∈ fs, ∀ (st2 : St) (e2 : Em) (xo2 wt2 : Bool), SelfSt st2 →
        (walk defaultCfg st2 e2 (some f.2) (some f.2) xo2 wt2).rep = [] ∧
        SelfSt (walk defaultCfg st2 e2 (some f.2) (some f.2) xo2 wt2).st) →
      SelfSt st →
      (walkFields defaultCfg st e t fs fs).rep = [] ∧
      SelfSt (walkFields defaultCfg st e t fs fs).st := by
  intro fs
  induction fs with
  | nil =>
    intro st e t h hst
    rw [walkFields.eq_def]
    exact ⟨rfl, hst⟩
  | cons fa fas ihf =>
    intro st e t h hst
    rw [walkFields.eq_def]
    simp only
    have h1 := h fa (List.mem_cons_self fa fas) st (e.subf t ("." ++ fa.1))
      true false hst
    have h2 := ihf _ e t (fun f hfm => h f (List.mem_cons_of_mem fa hfm)) h1.2
    rw [h1.1, h2.1]
    exact ⟨rfl, h2.2⟩

/-- Core of C1: walking a func-free value against itself from any
self-paired session state emits nothing and preserves self-pairing. -/
theorem walk_self_aux :
    ∀ (n : Nat) (v : Val), vsz v ≤ n → funcFreeV v = true →
      ∀ (st : St) (e : Em) (xo wt : Bool), SelfSt st →
        (walk defaultCfg st e (some v) (some v) xo wt).rep = [] ∧
        SelfSt (walk defaultCfg st e (some v) (some v) xo wt).st := by
  intro n
  induction n with
  | zero =>
    intro v hv
    have := vsz_pos v
    omega
  | succ n ih =>
    intro v hv hf st e xo wt hst
    cases v with
    | vInt a =>
      rw [walk_step defaultCfg st e (Val.vInt a) (Val.vInt a) xo wt rfl rfl rfl,
        walkRest_nofmt _ _ _ _ _ _ _ _ (lookupFmt_default _), walkKind_int]
      exact ⟨by simp [eqtest], hst⟩
    | vBool b =>
      rw [walk_step defaultCfg st e (Val.vBool b) (Val.vBool b) xo wt rfl rfl rfl,
        walkRest_nofmt _ _ _ _ _ _ _ _ (lookupFmt_default _), walkKind_bool]
      exact ⟨by simp [eqtest], hst⟩
    | vStr s2 =>
      rw [walk_step defaultCfg st e (Val.vStr s2) (Val.vStr s2) xo wt rfl rfl rfl,
        walkRest_nofmt _ _ _ _ _ _ _ _ (lookupFmt_default _), walkKind_str]
      exact ⟨by simp [stringDiff], hst⟩
    | vFunc p =>
      rw [funcFreeV] at hf
      rw [Option.isNone_iff_eq_none] at hf
      subst hf
      rw [walk_step defaultCfg st e (Val.vFunc none) (Val.vFunc none) xo wt rfl rfl rfl,
        walkRest_nofmt _ _ _ _ _ _ _ _ (lookupFmt_default _), walkKind_func]
      exact ⟨by simp [defaultCfg], hst⟩
    | vArr t es =>
      rw [walk_step defaultCfg st e (Val.vArr t es) (Val.vArr t es) xo wt rfl rfl rfl,
        walkRest_nofmt _ _ _ _ _ _ _ _ (lookupFmt_default _), walkKind_arr]
      rw [funcFreeV] at hf
      have hd : ∀ x ∈ es, equal defaultCfg (some x) (some x) true = true := by
        intro x hx
        rw [equal_defaultCfg]
        have hszx : vsz x ≤ n := by
          have h1 := vsz_le_lsz hx
          simp only [vsz] at hv
          omega
        have := ih x hszx (funcFreeL_mem hx hf) emptySt emptyEm true true
          selfSt_empty
        rw [this.1]
        rfl
      rw [seqDiff_self defaultCfg st _ _ es hd]
      exact ⟨rfl, hst⟩
    | vStruct name fs =>
      rw [walk_step defaultCfg st e (Val.vStruct name fs) (Val.vStruct name fs) xo wt rfl rfl rfl,
        walkRest_nofmt _ _ _ _ _ _ _ _ (lookupFmt_default _), walkKind_struct]
      rw [funcFreeV] at hf
      refine walkFields_self fs st _ _ ?_ hst
      intro f hfm st2 e2 xo2 wt2 hst2
      have hszf : vsz f.2 ≤ n := by
        have h1 := vsz_le_fsz hfm
        simp only [vsz] at hv
        omega
      exact ih f.2 hszf (funcFreeF_mem hfm hf) st2 e2 xo2 wt2 hst2
    | vPtr t p =>
      cases p with
      | none =>
        rw [walk_step defaultCfg st e (Val.vPtr t none) (Val.vPtr t none) xo wt rfl rfl rfl,
          walkRest_nofmt _ _ _ _ _ _ _ _ (lookupFmt_default _),
          walkKind_ptr_pideq _ _ _ _ _ _ _ _ _ _ rfl]
        exact ⟨rfl, hst⟩
      | some pa =>
        rcases hl : lookupTab st.aSeen ⟨pa.1, (Val.vPtr t (some pa)).ty⟩
          with _ | w
        · have hlb : lookupTab st.bSeen ⟨pa.1, (Val.vPtr t (some pa)).ty⟩
            = none := by
            rw [hst.1]
            exact hl
          rw [walk_step_fresh defaultCfg st e (Val.vPtr t (some pa)) (Val.vPtr t (some pa)) xo wt pa.1 pa.1 rfl rfl hl hlb rfl]
          simp only
          rw [walkRest_nofmt _ _ _ _ _ _ _ _ (lookupFmt_default _),
            walkKind_ptr_pideq _ _ _ _ _ _ _ _ _ _ rfl]
          exact ⟨rfl, selfSt_push hst _⟩
        · have hw := lookupTab_self hst.2 hl
          rw [walk_step_hitA defaultCfg st e (Val.vPtr t (some pa)) (Val.vPtr t (some pa)) xo wt pa.1 pa.1 w rfl rfl hl]
          constructor
          · simp [hw]
          · exact hst
    | vSlice t p =>
      cases p with
      | none =>
        rw [walk_step defaultCfg st e (Val.vSlice t none) (Val.vSlice t none) xo wt rfl rfl rfl,
          walkRest_nofmt _ _ _ _ _ _ _ _ (lookupFmt_default _),
          walkKind_slice_self]
        exact ⟨rfl, hst⟩
      | some qa =>
        rcases hl : lookupTab st.aSeen ⟨qa.1, (Val.vSlice t (some qa)).ty⟩
          with _ | w
        · have hlb : lookupTab st.bSeen ⟨qa.1, (Val.vSlice t (some qa)).ty⟩
            = none := by
            rw [hst.1]
            exact hl
          rw [walk_step_fresh defaultCfg st e (Val.vSlice t (some qa)) (Val.vSlice t (some qa)) xo wt qa.1 qa.1 rfl rfl hl hlb rfl]
          simp only
          rw [walkRest_nofmt _ _ _ _ _ _ _ _ (lookupFmt_default _),
            walkKind_slice_self]
          exact ⟨rfl, selfSt_push hst _⟩
        · have hw := lookupTab_self hst.2 hl
          rw [walk_step_hitA defaultCfg st e (Val.vSlice t (some qa)) (Val.vSlice t (some qa)) xo wt qa.1 qa.1 w rfl rfl hl]
          constructor
          · simp [hw]
          · exact hst
    | vMap t p =>
      cases p with
      | none =>
        rw [walk_step defaultCfg st e (Val.vMap t none) (Val.vMap t none) xo wt rfl rfl rfl,
          walkRest_nofmt _ _ _ _ _ _ _ _ (lookupFmt_default _),
          walkKind_map_pideq _ _ _ _ _ _ _ _ _ _ rfl]
        exact ⟨rfl, hst⟩
      | some pa =>
        rcases hl : lookupTab st.aSeen ⟨pa.1, (Val.vMap t (some pa)).ty⟩
          with _ | w
        · have hlb : lookupTab st.bSeen ⟨pa.1, (Val.vMap t (some pa)).ty⟩
            = none := by
            rw [hst.1]
            exact hl
          rw [walk_step_fresh defaultCfg st e (Val.vMap t (some pa)) (Val.vMap t (some pa)) xo wt pa.1 pa.1 rfl rfl hl hlb rfl]
          simp only
          rw [walkRest_nofmt _ _ _ _ _ _ _ _ (lookupFmt_default _),
            walkKind_map_pideq _ _ _ _ _ _ _ _ _ _ rfl]
          exact ⟨rfl, selfSt_push hst _⟩
        · have hw := lookupTab_self hst.2 hl
          rw [walk_step_hitA defaultCfg st e (Val.vMap t (some pa)) (Val.vMap t (some pa)) xo wt pa.1 pa.1 w rfl rfl hl]
          constructor
          · simp [hw]
          · exact hst

/-- C1 (corrected): with the default options, comparing an acyclic value
against itself emits nothing provided no non-nil func value sits at a
directly compared position; the Func case of the walk emits for any non-nil
func pair (see the counterexample), so the unrestricted claim fails. -/
theorem C1_self_silent (v : Val) (hf : funcFreeV v = true) :
    each defaultCfg (some v) (some v) = [] := by
  have h := walk_self_aux (vsz v) v (le_refl _) hf emptySt emptyEm true true
    selfSt_empty
  simpa [each, eachOut, addressable] using h.1

/-- Witness for C1 on a concrete func-free value. -/
theorem C1_self_silent_witness :
    funcFreeV (Val.vArr Ty.int [Val.vInt 3, Val.vInt 4]) = true ∧
    each defaultCfg (some (Val.vArr Ty.int [Val.vInt 3, Val.vInt 4]))
      (some (Val.vArr Ty.int [Val.vInt 3, Val.vInt 4])) = [] := by
  have hf : funcFreeV (Val.vArr Ty.int [Val.vInt 3, Val.vInt 4]) = true := by
    simp [funcFreeV, funcFreeL]
  exact ⟨hf, C1_self_silent _ hf⟩

/-- Counterexample to the literal C1: a non-nil func compared against
itself emits a difference under the default options. -/
theorem C1_self_silent_counterexample :
    each defaultCfg (some (Val.vFunc (some 1)))
      (some (Val.vFunc (some 1))) ≠ [] := by
  have he : each defaultCfg (some (Val.vFunc (some 1)))
      (some (Val.vFunc (some 1))) =
      (walk defaultCfg emptySt emptyEm (some (Val.vFunc (some 1)))
        (some (Val.vFunc (some 1))) true true).rep := rfl
  rw [he, walk_step defaultCfg emptySt emptyEm (Val.vFunc (some 1)) (Val.vFunc (some 1)) true true rfl rfl rfl,
    walkRest_nofmt _ _ _ _ _ _ _ _ (lookupFmt_default _), walkKind_func]
  simp [defaultCfg, emitPointers, emitf]


/-!
C4: map comparison over the sorted union of key sets.
-/

theorem mem_insertSorted {y x : Int} {l : List Int} :
    y ∈ insertSorted x l ↔ y = x ∨ y ∈ l := by
  induction l with
  | nil => simp [insertSorted]
  | cons z zs ihe =>
    rw [insertSorted]
    by_cases h : x ≤ z
    · simp [h, List.mem_cons]
    · simp only [h, if_false, List.mem_cons, ihe]
      tauto

theorem mem_sortInts {y : Int} {l : List Int} :
    y ∈ sortInts l ↔ y ∈ l := by
  induction l with
  | nil => simp [sortInts]
  | cons z zs ihe =>
    rw [sortInts, mem_insertSorted, ihe, List.mem_cons]

theorem insertSorted_sorted {x : Int} {l : List Int}
    (h : List.Sorted (· ≤ ·) l) :
    List.Sorted (· ≤ ·) (insertSorted x l) := by
  induction l with
  | nil => simp [insertSorted]
  | cons z zs ihe =>
    rw [List.sorted_cons] at h
    rw [insertSorted]
    by_cases hx : x ≤ z
    · rw [if_pos hx, List.sorted_cons]
      constructor
      · intro y hy
        rcases List.mem_cons.mp hy with h2 | h2
        · omega
        · have := h.1 y h2
          omega
      · rw [List.sorted_cons]
        exact h
    · rw [if_neg hx, List.sorted_cons]
      constructor
      · intro y hy
        rcases mem_insertSorted.mp hy with h2 | h2
        · omega
        · exact h.1 y h2
      · exact ihe h.2

theorem sortInts_sorted (l : List Int) :
    List.Sorted (· ≤ ·) (sortInts l) := by
  induction l with
  | nil => simp [sortInts]
  | cons z zs ihe => exact insertSorted_sorted ihe

theorem insertSorted_perm (x : Int) (l : List Int) :
    List.Perm (insertSorted x l) (x :: l) := by
  induction l with
  | nil => simp [insertSorted]
  | cons z zs ihe =>
    rw [insertSorted]
    by_cases h : x ≤ z
    · rw [if_pos h]
    · rw [if_neg h]
      exact (List.Perm.cons z ihe).trans (List.Perm.swap x z zs)

theorem sortInts_perm (l : List Int) : List.Perm (sortInts l) l := by
  induction l with
  | nil => simp [sortInts]
  | cons z zs ihe =>
    rw [sortInts]
    exact (insertSorted_perm z (sortInts zs)).trans (List.Perm.cons z ihe)

theorem sortInts_nodup {l : List Int} (h : l.Nodup) : (sortInts l).Nodup :=
  (sortInts_perm l).nodup_iff.mpr h

theorem mem_sortedKeys {k : Int} {ms : List (List (Int × Val))} :
    k ∈ sortedKeys ms ↔ ∃ m ∈ ms, k ∈ m.map Prod.fst := by
  rw [sortedKeys, mem_sortInts, List.mem_dedup, List.mem_flatMap]

theorem sortedKeys_sorted (ms : List (List (Int × Val))) :
    List.Sorted (· ≤ ·) (sortedKeys ms) := sortInts_sorted _

theorem sortedKeys_nodup (ms : List (List (Int × Val))) :
    (sortedKeys ms).Nodup := sortInts_nodup (List.nodup_dedup _)

theorem mapIndex_isSome {m : List (Int × Val)} {k : Int} :
    (mapIndex m k).isSome = true ↔ k ∈ m.map Prod.fst := by
  induction m with
  | nil => simp [mapIndex, List.find?]
  | cons kv rest ihe =>
    rw [mapIndex, List.find?]
    by_cases hk : (kv.1 == k) = true
    · rw [hk]
      simp only [Option.isSome_some, true_iff]
      rw [List.map_cons, List.mem_cons]
      exact Or.inl (beq_iff_eq.mp hk).symm
    · rw [Bool.not_eq_true] at hk
      rw [hk]
      rw [mapIndex] at ihe
      rw [ihe, List.map_cons, List.mem_cons]
      have : ¬ k = kv.1 := by
        intro h
        rw [h] at hk
        simp at hk
      tauto

/-- Spec-side description (C4) of what the walker emits for one key of the
sorted key union: a recursive comparison when the key is in both maps, one
(removed) difference when only in A, one (added) difference when only in B.
stk is the session state the recursive walk for this key starts from. -/
def specMapEntry (c : Cfg) (e : Em) (t : Ty) (ea eb : List (Int × Val))
    (k : Int) (stk : St) : List Report :=
  let esub := (e.subf t ("[" ++ toString k ++ "]")).set (mapIndex ea k)
    (mapIndex eb k)
  match mapIndex ea k, mapIndex eb k with
  | some va2, some vb2 => (walk c stk esub (some va2) (some vb2) true false).rep
  | some _, none => emitf esub Msg.removed
  | none, some vb2 => emitf esub (Msg.added vb2)
  | none, none => []

theorem walkMapKeys_decomp (c : Cfg) (e : Em) (t : Ty)
    (ea eb : List (Int × Val)) :
    ∀ (ks : List Int) (st : St), ∃ sts : List St,
      sts.length = ks.length ∧
      (walkMapKeys c st e t ea eb ks).rep =
        (ks.zip sts).flatMap (fun pr => specMapEntry c e t ea eb pr.1 pr.2) := by
  intro ks
  induction ks with
  | nil =>
    intro st
    exact ⟨[], rfl, by rw [walkMapKeys.eq_def]; rfl⟩
  | cons k ks2 ihe =>
    intro st
    rw [walkMapKeys.eq_def]
    simp only
    rcases hma : mapIndex ea k with _ | va2 <;>
      rcases hmb : mapIndex eb k with _ | vb2
    · obtain ⟨sts, hlen, hrep⟩ := ihe st
      refine ⟨st :: sts, by simp [hlen], ?_⟩
      simp only [hma, hmb, List.zip_cons_cons, List.flatMap_cons]
      rw [← hrep]
      have hhead : specMapEntry c e t ea eb k st = [] := by
        simp only [specMapEntry, hma, hmb]
      rw [hhead]
    · obtain ⟨sts, hlen, hrep⟩ := ihe st
      refine ⟨st :: sts, by simp [hlen], ?_⟩
      simp only [hma, hmb, List.zip_cons_cons, List.flatMap_cons]
      rw [← hrep]
      have hhead : specMapEntry c e t ea eb k st =
          emitf ((e.subf t ("[" ++ toString k ++ "]")).set none (some vb2))
            (Msg.added vb2) := by
        simp only [specMapEntry, hma, hmb]
      rw [hhead]
    · obtain ⟨sts, hlen, hrep⟩ := ihe st
      refine ⟨st :: sts, by simp [hlen], ?_⟩
      simp only [hma, hmb, List.zip_cons_cons, List.flatMap_cons]
      rw [← hrep]
      have hhead : specMapEntry c e t ea eb k st =
          emitf ((e.subf t ("[" ++ toString k ++ "]")).set (some va2) none)
            Msg.removed := by
        simp only [specMapEntry, hma, hmb]
      rw [hhead]
    · obtain ⟨sts, hlen, hrep⟩ :=
        ihe (walk c st ((e.subf t ("[" ++ toString k ++ "]")).set
          (some va2) (some vb2)) (some va2) (some vb2) true false).st
      refine ⟨st :: sts, by simp [hlen], ?_⟩
      simp only [hma, hmb, List.zip_cons_cons, List.flatMap_cons]
      rw [← hrep]
      have hhead : specMapEntry c e t ea eb k st =
          (walk c st ((e.subf t ("[" ++ toString k ++ "]")).set
            (some va2) (some vb2)) (some va2) (some vb2) true false).rep := by
        simp only [specMapEntry, hma, hmb]
      rw [hhead]


/-- C4: for two non-nil maps with distinct identities, the walk emits, in
the sorted deduplicated order of the union of the key sets, one (removed)
difference for each key only in A, one (added) difference for each key only
in B, and the recursive comparison of the two values for each shared key;
the key list is deterministic (a sorted function of the key sets). -/
theorem C4_map_keys (t : Ty) (pa pb : Nat) (ea eb : List (Int × Val))
    (hne : pa ≠ pb) :
    (∀ k : Int, k ∈ sortedKeys [ea, eb] ↔
      (k ∈ ea.map Prod.fst ∨ k ∈ eb.map Prod.fst)) ∧
    List.Sorted (· ≤ ·) (sortedKeys [ea, eb]) ∧
    (sortedKeys [ea, eb]).Nodup ∧
    ∃ sts : List St, sts.length = (sortedKeys [ea, eb]).length ∧
      each defaultCfg (some (Val.vMap t (some (pa, ea))))
          (some (Val.vMap t (some (pb, eb)))) =
        ((sortedKeys [ea, eb]).zip sts).flatMap (fun pr =>
          specMapEntry defaultCfg
            (emptyEm.set (some (Val.vMap t (some (pa, ea))))
              (some (Val.vMap t (some (pb, eb)))))
            (Ty.mapT t) ea eb pr.1 pr.2) := by
  refine ⟨?_, sortedKeys_sorted _, sortedKeys_nodup _, ?_⟩
  · intro k
    rw [mem_sortedKeys]
    constructor
    · rintro ⟨m, hm, hk⟩
      simp only [List.mem_cons, List.not_mem_nil, or_false] at hm
      rcases hm with h2 | h2 <;> rw [h2] at hk
      · exact Or.inl hk
      · exact Or.inr hk
    · rintro (h | h)
      · exact ⟨ea, by simp, h⟩
      · exact ⟨eb, by simp, h⟩
  · have he : each defaultCfg (some (Val.vMap t (some (pa, ea))))
        (some (Val.vMap t (some (pb, eb)))) =
        (walk defaultCfg emptySt emptyEm
          (some (Val.vMap t (some (pa, ea))))
          (some (Val.vMap t (some (pb, eb)))) true true).rep := rfl
    rw [he, walk_step_fresh defaultCfg emptySt emptyEm
      (Val.vMap t (some (pa, ea))) (Val.vMap t (some (pb, eb))) true true
      pa pb rfl rfl rfl rfl rfl]
    simp only
    rw [walkRest_nofmt _ _ _ _ _ _ _ _ (lookupFmt_default _),
      walkKind_map_some _ _ _ _ _ (pa, ea) (pb, eb) _ _ _ hne]
    simp only
    exact walkMapKeys_decomp defaultCfg _ _ ea eb (sortedKeys [ea, eb]) _

/-- Witness for C4 at two concrete one-entry maps. -/
theorem C4_map_keys_witness :
    (1 : Nat) ≠ 2 ∧
    ((∀ k : Int, k ∈ sortedKeys [[(1, Val.vInt 1)], [(2, Val.vInt 2)]] ↔
      (k ∈ ([((1 : Int), Val.vInt 1)]).map Prod.fst ∨
        k ∈ ([((2 : Int), Val.vInt 2)]).map Prod.fst)) ∧
    List.Sorted (· ≤ ·) (sortedKeys [[(1, Val.vInt 1)], [(2, Val.vInt 2)]]) ∧
    (sortedKeys [[(1, Val.vInt 1)], [(2, Val.vInt 2)]]).Nodup ∧
    ∃ sts : List St,
      sts.length = (sortedKeys [[(1, Val.vInt 1)], [(2, Val.vInt 2)]]).length ∧
      each defaultCfg
          (some (Val.vMap Ty.int (some (1, [(1, Val.vInt 1)]))))
          (some (Val.vMap Ty.int (some (2, [(2, Val.vInt 2)])))) =
        ((sortedKeys [[(1, Val.vInt 1)], [(2, Val.vInt 2)]]).zip sts).flatMap
          (fun pr =>
          specMapEntry defaultCfg
            (emptyEm.set
              (some (Val.vMap Ty.int (some (1, [(1, Val.vInt 1)]))))
              (some (Val.vMap Ty.int (some (2, [(2, Val.vInt 2)])))))
            (Ty.mapT Ty.int) [(1, Val.vInt 1)] [(2, Val.vInt 2)]
            pr.1 pr.2)) :=
  ⟨by decide,
    C4_map_keys Ty.int 1 2 [(1, Val.vInt 1)] [(2, Val.vInt 2)] (by decide)⟩


/-!
C5: sequence diff entry processing.
-/

/-- Spec-side description (C5) of what seqDiff emits for one edit entry:
ranges of equal length recurse (one walk per position, walkPositions);
ranges of unequal length emit exactly one difference carrying the two
sub-ranges. stk is the session state this entry starts from. -/
def specSeqEntry (c : Cfg) (e : Em) (t : Ty) (la lb : List Val)
    (ed : Diffseq.Edit) (stk : St) : List Report :=
  if ed.a1 - ed.a0 = ed.b1 - ed.b0 then
    (walkPositions c stk e t la lb ed.a0 ed.b0 (ed.a1 - ed.a0)).rep
  else
    emitf (e.subf t ("[" ++ toString ed.a0 ++ ":" ++ toString ed.a1 ++ "]"))
      (Msg.rangeNeq t (Diffseq.slice la ed.a0 ed.a1)
        (Diffseq.slice lb ed.b0 ed.b1))

theorem seqEntries_decomp (c : Cfg) (e : Em) (t : Ty) (la lb : List Val) :
    ∀ (edits : List Diffseq.Edit) (st : St), ∃ sts : List St,
      sts.length = edits.length ∧
      (seqEntries c st e t la lb edits).rep =
        (edits.zip sts).flatMap
          (fun pr => specSeqEntry c e t la lb pr.1 pr.2) := by
  intro edits
  induction edits with
  | nil =>
    intro st
    exact ⟨[], rfl, by rw [seqEntries.eq_def]; rfl⟩
  | cons ed rest ihe =>
    intro st
    rw [seqEntries.eq_def]
    simp only
    by_cases hlen2 : ed.a1 - ed.a0 = ed.b1 - ed.b0
    · obtain ⟨sts, hl, hrep⟩ :=
        ihe (walkPositions c st e t la lb ed.a0 ed.b0 (ed.a1 - ed.a0)).st
      refine ⟨st :: sts, by simp [hl], ?_⟩
      rw [if_pos hlen2, List.zip_cons_cons, List.flatMap_cons, ← hrep]
      have hhead : specSeqEntry c e t la lb ed st =
          (walkPositions c st e t la lb ed.a0 ed.b0 (ed.a1 - ed.a0)).rep := by
        rw [specSeqEntry, if_pos hlen2]
      rw [hhead]
    · obtain ⟨sts, hl, hrep⟩ := ihe st
      refine ⟨st :: sts, by simp [hl], ?_⟩
      rw [if_neg hlen2, List.zip_cons_cons, List.flatMap_cons, ← hrep]
      have hhead : specSeqEntry c e t la lb ed st =
          emitf (e.subf t ("[" ++ toString ed.a0 ++ ":" ++ toString ed.a1
            ++ "]"))
            (Msg.rangeNeq t (Diffseq.slice la ed.a0 ed.a1)
              (Diffseq.slice lb ed.b0 ed.b1)) := by
        rw [specSeqEntry, if_neg hlen2]
      rw [hhead]

theorem walkPositions_decomp (c : Cfg) (e : Em) (t : Ty) (la lb : List Val) :
    ∀ (n a0 b0 : Nat) (st : St), ∃ sts : List St,
      sts.length = n ∧
      (walkPositions c st e t la lb a0 b0 n).rep =
        (((List.range' a0 n).zip (List.range' b0 n)).zip sts).flatMap
          (fun pr => (walk c pr.2
            (e.subf t ("[" ++ toString pr.1.1 ++ "]"))
            (la.get? pr.1.1) (lb.get? pr.1.2) true false).rep) := by
  intro n
  induction n with
  | zero =>
    intro a0 b0 st
    exact ⟨[], rfl, by rw [walkPositions.eq_def]; rfl⟩
  | succ n2 ihn =>
    intro a0 b0 st
    rw [walkPositions.eq_def]
    simp only
    obtain ⟨sts, hl, hrep⟩ := ihn (a0 + 1) (b0 + 1)
      (walk c st (e.subf t ("[" ++ toString a0 ++ "]")) (la.get? a0)
        (lb.get? b0) true false).st
    refine ⟨st :: sts, by simp [hl], ?_⟩
    rw [List.range'_succ, List.range'_succ, List.zip_cons_cons,
      List.zip_cons_cons, List.flatMap_cons, ← hrep]

theorem equal_int_defaultCfg (a b : Int) :
    equal defaultCfg (some (Val.vInt a)) (some (Val.vInt b)) true =
      (a == b) := by
  rw [equal_defaultCfg,
    walk_step defaultCfg emptySt emptyEm (Val.vInt a) (Val.vInt b) true true
      rfl rfl rfl,
    walkRest_nofmt _ _ _ _ _ _ _ _ (lookupFmt_default _), walkKind_int]
  by_cases h : a = b
  · simp [eqtest, h]
  · simp [eqtest, h, emitf]


/-- C5: seqDiff processes the edit script entry by entry: an entry whose
A- and B-ranges have equal length recurses once per position (walkPositions,
itself one walk per index pair), and an entry with ranges of unequal length
emits exactly one difference carrying the two rendered sub-ranges; a
3-element slice against a 2-element slice sharing its prefix yields a single
difference covering the trailing element. -/
theorem C5_seq_entries :
    (∀ (c : Cfg) (st : St) (e : Em) (t : Ty) (la lb : List Val),
      ∃ sts : List St,
        sts.length = (Diffseq.Diff la.length lb.length
          (fun ai bi => ((eqMat c la lb).getD ai []).getD bi false)).length ∧
        (seqDiff c st e t la lb).rep =
          ((Diffseq.Diff la.length lb.length
            (fun ai bi => ((eqMat c la lb).getD ai []).getD bi false)).zip
              sts).flatMap
            (fun pr => specSeqEntry c e t la lb pr.1 pr.2)) ∧
    (∀ (c : Cfg) (e : Em) (t : Ty) (la lb : List Val) (n a0 b0 : Nat)
      (st : St),
      ∃ sts : List St, sts.length = n ∧
        (walkPositions c st e t la lb a0 b0 n).rep =
          (((List.range' a0 n).zip (List.range' b0 n)).zip sts).flatMap
            (fun pr => (walk c pr.2
              (e.subf t ("[" ++ toString pr.1.1 ++ "]"))
              (la.get? pr.1.1) (lb.get? pr.1.2) true false).rep)) ∧
    each defaultCfg
      (some (Val.vSlice Ty.int (some (1, [Val.vInt 1, Val.vInt 2, Val.vInt 3]))))
      (some (Val.vSlice Ty.int (some (2, [Val.vInt 1, Val.vInt 2])))) =
    [⟨"[]int", ["[2:3]"], none, none,
      Msg.rangeNeq (Ty.slice Ty.int) [Val.vInt 3] []⟩] := by
  refine ⟨?_, ?_, ?_⟩
  · intro c st e t la lb
    simp only [seqDiff.eq_def]
    exact seqEntries_decomp c e t la lb _ st
  · intro c e t la lb n a0 b0 st
    exact walkPositions_decomp c e t la lb n a0 b0 st
  · have he : each defaultCfg
        (some (Val.vSlice Ty.int (some (1, [Val.vInt 1, Val.vInt 2, Val.vInt 3]))))
        (some (Val.vSlice Ty.int (some (2, [Val.vInt 1, Val.vInt 2])))) =
        (walk defaultCfg emptySt emptyEm
          (some (Val.vSlice Ty.int (some (1, [Val.vInt 1, Val.vInt 2, Val.vInt 3]))))
          (some (Val.vSlice Ty.int (some (2, [Val.vInt 1, Val.vInt 2])))) true true).rep := rfl
    rw [he, walk_step_fresh defaultCfg emptySt emptyEm
      (Val.vSlice Ty.int (some (1, [Val.vInt 1, Val.vInt 2, Val.vInt 3])))
      (Val.vSlice Ty.int (some (2, [Val.vInt 1, Val.vInt 2]))) true true
      1 2 rfl rfl rfl rfl rfl]
    simp only
    rw [walkRest_nofmt _ _ _ _ _ _ _ _ (lookupFmt_default _),
      walkKind_slice_some _ _ _ _ _ (1, [Val.vInt 1, Val.vInt 2, Val.vInt 3])
        (2, [Val.vInt 1, Val.vInt 2]) _ _ _ (by simp)]
    simp only
    simp only [seqDiff.eq_def]
    have hm : eqMat defaultCfg [Val.vInt 1, Val.vInt 2, Val.vInt 3]
        [Val.vInt 1, Val.vInt 2] = [[true, false], [false, true], [false, false]] := by
      simp [eqMat.eq_def, eqRow.eq_def, equal_int_defaultCfg]
    rw [hm]
    have hd : Diffseq.Diff ([Val.vInt 1, Val.vInt 2, Val.vInt 3] : List Val).length
        ([Val.vInt 1, Val.vInt 2] : List Val).length
        (fun ai bi => (([[true, false], [false, true], [false, false]]).getD ai []).getD bi false) =
        [⟨2, 3, 2, 2⟩] := by
      simp [Diffseq.Diff, Diffseq.genScript, Diffseq.merge, Diffseq.mergeStep,
        Diffseq.Range.op, Diffseq.updateLast]
    rw [hd]
    rw [seqEntries.eq_def]
    simp only
    norm_num
    rw [seqEntries.eq_def]
    simp [emitf, Em.subf, Em.set, emptyEm, writeType, Diffseq.slice]
    constructor <;> rfl


/-!
C6: string diff granularity selection.
-/

/-- C6: for two unequal strings under the default options (EmitAuto), the
diff granularity is chosen in this fixed order: lines when both sides split
into at least 2 newline-separated parts of average byte length at most 72
(unified rendering); one quoted pair when both byte lengths are below 20 or
either side is empty; words when both sides split into at least 3
space-separated parts of average byte length at most 10 (byte-range
reports); otherwise rune by rune. -/
theorem C6_text_granularity (a b : String) (hne : a ≠ b) :
    each defaultCfg (some (Val.vStr a)) (some (Val.vStr b)) =
      (if textCheck a '\n' 2 72 && textCheck b '\n' 2 72 then
        emitf (emptyEm.set (some (Val.vStr a)) (some (Val.vStr b)))
          (Msg.unified a b "a" "b")
      else if (strLen a < 20 && strLen b < 20) || a = "" || b = "" then
        emitf (emptyEm.set (some (Val.vStr a)) (some (Val.vStr b)))
          (Msg.strNeq a b)
      else if textCheck a ' ' 3 10 && textCheck b ' ' 3 10 then
        textDiffInline (emptyEm.set (some (Val.vStr a)) (some (Val.vStr b)))
          a b (splitAfter a ' ') (splitAfter b ' ')
      else
        textDiffInline (emptyEm.set (some (Val.vStr a)) (some (Val.vStr b)))
          a b (splitRunes a) (splitRunes b)) := by
  have he : each defaultCfg (some (Val.vStr a)) (some (Val.vStr b)) =
      (walk defaultCfg emptySt emptyEm (some (Val.vStr a))
        (some (Val.vStr b)) true true).rep := rfl
  rw [he, walk_step defaultCfg emptySt emptyEm (Val.vStr a) (Val.vStr b)
    true true rfl rfl rfl,
    walkRest_nofmt _ _ _ _ _ _ _ _ (lookupFmt_default _), walkKind_str]
  simp only
  rw [stringDiff, if_neg hne, textDiff]
  simp only [defaultCfg]
  rfl

/-- Witness for C6 at two concrete unequal strings. -/
theorem C6_text_granularity_witness :
    ("ax" : String) ≠ "bx" ∧
    each defaultCfg (some (Val.vStr "ax")) (some (Val.vStr "bx")) =
      (if textCheck "ax" '\n' 2 72 && textCheck "bx" '\n' 2 72 then
        emitf (emptyEm.set (some (Val.vStr "ax")) (some (Val.vStr "bx")))
          (Msg.unified "ax" "bx" "a" "b")
      else if (strLen "ax" < 20 && strLen "bx" < 20) || "ax" = "" || "bx" = ""
        then
        emitf (emptyEm.set (some (Val.vStr "ax")) (some (Val.vStr "bx")))
          (Msg.strNeq "ax" "bx")
      else if textCheck "ax" ' ' 3 10 && textCheck "bx" ' ' 3 10 then
        textDiffInline
          (emptyEm.set (some (Val.vStr "ax")) (some (Val.vStr "bx")))
          "ax" "bx" (splitAfter "ax" ' ') (splitAfter "bx" ' ')
      else
        textDiffInline
          (emptyEm.set (some (Val.vStr "ax")) (some (Val.vStr "bx")))
          "ax" "bx" (splitRunes "ax") (splitRunes "bx")) :=
  ⟨by decide, C6_text_granularity "ax" "bx" (by decide)⟩


/-!
C7: short-mode truncation bound of the formatter.
-/

/-- Number of ellipsis markers at one nesting level (Tok.sub groups are one
rendered element and are not entered). -/
def countEll : List Tok → Nat
  | [] => 0
  | Tok.ellipsisTok _ :: ts => 1 + countEll ts
  | _ :: ts => countEll ts

/-- Number of rendered elements at one nesting level: each element of a
container is grouped into one Tok.sub. -/
def countSub : List Tok → Nat
  | [] => 0
  | Tok.sub _ :: ts => 1 + countSub ts
  | _ :: ts => countSub ts

theorem countEll_append (l1 l2 : List Tok) :
    countEll (l1 ++ l2) = countEll l1 + countEll l2 := by
  induction l1 with
  | nil => simp [countEll]
  | cons t ts ihe =>
    cases t <;> simp [countEll, ihe] <;> omega

theorem countSub_append (l1 l2 : List Tok) :
    countSub (l1 ++ l2) = countSub l1 + countSub l2 := by
  induction l1 with
  | nil => simp [countSub]
  | cons t ts ihe =>
    cases t <;> simp [countSub, ihe] <;> omega

/-- Element/field/entry count of a container value; the count of a map is
the number of its distinct keys, as iterated by the formatter. -/
def containerCount : Val → Option Nat
  | .vSlice _ (some pr) => some pr.2.length
  | .vArr _ es => some es.length
  | .vMap _ (some pr) => some (sortedKeys [pr.2]).length
  | .vStruct _ fs => some fs.length
  | _ => none

theorem fmtElems_trunc (ad d : Nat) :
    ∀ (es : List Val) (i : Nat) (seen : List Visit), i ≤ 20 →
      20 < i + es.length →
      countEll (fmtElems false ad seen es i d).2 = 1 ∧
      countSub (fmtElems false ad seen es i d).2 = 20 - i := by
  intro es
  induction es with
  | nil =>
    intro i seen h1 h2
    simp only [List.length_nil] at h2
    omega
  | cons e0 rest ihe =>
    intro i seen h1 h2
    rw [fmtElems.eq_def]
    simp only
    by_cases hi : i ≥ 20
    · rw [if_pos ⟨by simp, hi⟩]
      have h20 : i = 20 := by omega
      subst h20
      simp [countEll, countSub]
    · rw [if_neg (fun h => hi h.2)]
      have hih := ihe (i + 1)
        (writeTo false ad seen (some e0) false (d + 1)).1 (by omega)
        (by simp only [List.length_cons] at h2; omega)
      simp only [countEll, countSub]
      constructor
      · exact hih.1
      · rw [hih.2]
        omega

theorem fmtFields_trunc (ad d : Nat) :
    ∀ (fs : List (String × Val)) (i : Nat) (seen : List Visit), i ≤ 20 →
      20 < i + fs.length →
      countEll (fmtFields false ad seen fs i d).2 = 1 ∧
      countSub (fmtFields false ad seen fs i d).2 = 20 - i := by
  intro fs
  induction fs with
  | nil =>
    intro i seen h1 h2
    simp only [List.length_nil] at h2
    omega
  | cons f0 rest ihe =>
    intro i seen h1 h2
    rw [fmtFields.eq_def]
    simp only
    by_cases hi : i ≥ 20
    · rw [if_pos ⟨by simp, hi⟩]
      have h20 : i = 20 := by omega
      subst h20
      simp [countEll, countSub]
    · rw [if_neg (fun h => hi h.2)]
      have hih := ihe (i + 1)
        (writeTo false ad seen (some f0.2) false (d + 1)).1 (by omega)
        (by simp only [List.length_cons] at h2; omega)
      simp only [countEll, countSub]
      constructor
      · exact hih.1
      · rw [hih.2]
        omega

theorem fmtEntries_trunc (ad d : Nat) (es : List (Int × Val)) :
    ∀ (ks : List Int) (i : Nat) (seen : List Visit), i ≤ 20 →
      20 < i + ks.length →
      countEll (fmtEntries false ad seen es ks i d).2 = 1 ∧
      countSub (fmtEntries false ad seen es ks i d).2 = 20 - i := by
  intro ks
  induction ks with
  | nil =>
    intro i seen h1 h2
    simp only [List.length_nil] at h2
    omega
  | cons k rest ihe =>
    intro i seen h1 h2
    rw [fmtEntries.eq_def]
    simp only
    by_cases hi : i ≥ 20
    · rw [if_pos ⟨by simp, hi⟩]
      have h20 : i = 20 := by omega
      subst h20
      simp [countEll, countSub]
    · rw [if_neg (fun h => hi h.2)]
      have hih := ihe (i + 1)
        (writeTo false ad seen (mapIndex es k) false (d + 1)).1 (by omega)
        (by simp only [List.length_cons] at h2; omega)
      simp only [countEll, countSub]
      constructor
      · exact hih.1
      · rw [hih.2]
        omega


theorem sortedKeys_single_len_le (es : List (Int × Val)) :
    (sortedKeys [es]).length ≤ es.length := by
  rw [sortedKeys, (sortInts_perm _).length_eq]
  have h1 : ([es].flatMap (fun m => m.map Prod.fst)) = es.map Prod.fst := by
    simp
  rw [h1]
  have h2 := (es.map Prod.fst).dedup_sublist.length_le
  simpa using h2

/-- C7: the short rendering of a container with more than 20
elements/fields/entries carries exactly one ellipsis marker at that
container level and exactly 20 rendered (sub-grouped) elements. -/
theorem C7_truncation (v : Val) (n : Nat) (wt : Bool)
    (hc : containerCount v = some n) (hn : 20 < n) :
    countEll (formatShort (some v) wt) = 1 ∧
    countSub (formatShort (some v) wt) = 20 := by
  cases v with
  | vInt a => simp [containerCount] at hc
  | vBool b => simp [containerCount] at hc
  | vStr s2 => simp [containerCount] at hc
  | vFunc p => simp [containerCount] at hc
  | vPtr t p => simp [containerCount] at hc
  | vSlice t p =>
    cases p with
    | none => simp [containerCount] at hc
    | some pr =>
      simp only [containerCount, Option.some.injEq] at hc
      have hlen : 20 < pr.2.length := by omega
      rw [formatShort, writeTo.eq_def]
      simp only [visOf, List.contains_nil, Bool.false_eq_true, if_false]
      simp only [writeToV.eq_def]
      rw [if_neg (fun h => by omega), if_pos (by omega)]
      obtain ⟨h1, h2⟩ := fmtElems_trunc 2 1 pr.2 0
        (⟨pr.1, Ty.slice t⟩ :: []) (by omega) (by omega)
      by_cases hw : wt = true <;>
        simp [hw, countEll_append, countSub_append, countEll, countSub,
          h1, h2]
  | vArr t es =>
    simp only [containerCount, Option.some.injEq] at hc
    have hlen : 20 < es.length := by omega
    rw [formatShort, writeTo.eq_def]
    simp only [visOf]
    simp only [writeToV.eq_def]
    rw [if_neg (fun h => by omega), if_pos (by omega)]
    obtain ⟨h1, h2⟩ := fmtElems_trunc 2 1 es 0 [] (by omega) (by omega)
    by_cases hw : wt = true <;>
      simp [hw, countEll_append, countSub_append, countEll, countSub, h1, h2]
  | vMap t p =>
    cases p with
    | none => simp [containerCount] at hc
    | some pr =>
      simp only [containerCount, Option.some.injEq] at hc
      have hks : 20 < (sortedKeys [pr.2]).length := by omega
      have hlen : 1 < pr.2.length := by
        have := sortedKeys_single_len_le pr.2
        omega
      rw [formatShort, writeTo.eq_def]
      simp only [visOf, List.contains_nil, Bool.false_eq_true, if_false]
      simp only [writeToV.eq_def]
      rw [if_neg (fun h => by omega), if_pos (by omega)]
      obtain ⟨h1, h2⟩ := fmtEntries_trunc 2 1 pr.2 (sortedKeys [pr.2]) 0
        (⟨pr.1, Ty.mapT t⟩ :: []) (by omega) (by omega)
      by_cases hw : wt = true <;>
        simp [hw, countEll_append, countSub_append, countEll, countSub,
          h1, h2]
  | vStruct name fs =>
    simp only [containerCount, Option.some.injEq] at hc
    have hlen : 20 < fs.length := by omega
    rw [formatShort, writeTo.eq_def]
    simp only [visOf]
    simp only [writeToV.eq_def]
    rw [if_neg (fun h => by omega), if_pos (by omega)]
    obtain ⟨h1, h2⟩ := fmtFields_trunc 2 1 fs 0 [] (by omega) (by omega)
    by_cases hw : wt = true <;>
      simp [hw, countEll_append, countSub_append, countEll, countSub, h1, h2]


/-- Witness for C7 at a 21-element slice in short mode. -/
theorem C7_truncation_witness :
    containerCount (Val.vSlice Ty.int
      (some (1, List.replicate 21 (Val.vInt 0)))) = some 21 ∧
    20 < 21 ∧
    (countEll (formatShort (some (Val.vSlice Ty.int
      (some (1, List.replicate 21 (Val.vInt 0))))) false) = 1 ∧
    countSub (formatShort (some (Val.vSlice Ty.int
      (some (1, List.replicate 21 (Val.vInt 0))))) false) = 20) := by
  have hc : containerCount (Val.vSlice Ty.int
      (some (1, List.replicate 21 (Val.vInt 0)))) = some 21 := by
    simp [containerCount]
  exact ⟨hc, by omega, C7_truncation _ 21 false hc (by omega)⟩


/-!
C8: behavior of registered transforms in the current walk.
-/

/-- A registered transform collapsing every int to 0. It is impure in the
spec's sense as soon as the two raw values differ: the transformed values
always compare equal. -/
def constZero : XformFn :=
  ⟨fun _ => Val.vInt 0, fun v => vsz_pos v⟩

/-- The default options plus the constZero transform for int. -/
def cfgX : Cfg := { defaultCfg with xform := [(Ty.int, constZero)] }

/-- C8 (corrected): the current walk applies a registered transform
silently. With the hook registered for the pair's type, transforms
permitted, and ShowOriginal unset, the walker replaces the pair by the
transformed pair under the "(transformed)" path and emits exactly that
comparison's differences: it never compares the raw values, performs no
purity check, and emits no warning-tagged difference. -/
theorem C8_transform_silent (c : Cfg) (st st1 : St) (e : Em) (va vb : Val)
    (wt : Bool) (xf : XformFn) (evs0 : List Ev)
    (ht : vb.ty = va.ty) (hxf : lookupXf c va.ty = some xf)
    (hso : c.showOrig = false)
    (hcyc : cycleCheck st (e.set (some va) (some vb)) va.ty va vb =
      CycOut.cont st1 evs0) :
    walk c st e (some va) (some vb) true wt =
      ⟨(walk c st1 ((e.set (some va) (some vb)).subf va.ty "(transformed)")
          (some (xf.f va)) (some (xf.f vb)) false true).st,
        (walk c st1 ((e.set (some va) (some vb)).subf va.ty "(transformed)")
          (some (xf.f va)) (some (xf.f vb)) false true).rep,
        evs0 ++ (walk c st1
          ((e.set (some va) (some vb)).subf va.ty "(transformed)")
          (some (xf.f va)) (some (xf.f vb)) false true).evs⟩ := by
  rw [walk.eq_def]
  simp only [ht, ne_eq, not_true_eq_false, if_false, hcyc, hxf, hso,
    Bool.false_eq_true, dite_true, not_false_eq_true, if_true]

theorem lookupXf_cfgX : lookupXf cfgX Ty.int = some constZero := rfl

theorem lookupFmt_cfgX (t : Ty) : lookupFmt cfgX t = none := rfl

/-- Counterexample to C8: under cfgX the raw values 1 and 2 differ while
their transforms coincide (an impure hook per the spec's own definition),
yet the comparison emits nothing at all: no warning-tagged difference, no
raw values. -/
theorem C8_transform_silent_counterexample :
    (1 : Int) ≠ 2 ∧
    constZero.f (Val.vInt 1) = constZero.f (Val.vInt 2) ∧
    each cfgX (some (Val.vInt 1)) (some (Val.vInt 2)) = [] := by
  refine ⟨by decide, rfl, ?_⟩
  have hinner : ∀ (st : St) (e : Em),
      (walk cfgX st e (some (Val.vInt 0)) (some (Val.vInt 0))
        false true).rep = [] := by
    intro st e
    rw [walk.eq_def]
    simp only [Val.ty, ne_eq, not_true_eq_false, if_false, cycleCheck,
      cycIds, lookupXf_cfgX, Bool.false_eq_true, dite_false]
    rw [walkRest_nofmt _ _ _ _ _ _ _ _ (lookupFmt_cfgX _), walkKind_int]
    simp [eqtest]
  have he : each cfgX (some (Val.vInt 1)) (some (Val.vInt 2)) =
      (walk cfgX emptySt emptyEm (some (Val.vInt 1)) (some (Val.vInt 2))
        true true).rep := rfl
  rw [he, walk.eq_def]
  simp only [Val.ty, ne_eq, not_true_eq_false, if_false, cycleCheck,
    cycIds, lookupXf_cfgX, dite_true]
  have hso : cfgX.showOrig = false := rfl
  simp only [hso, Bool.false_eq_true, not_false_eq_true, if_true]
  exact hinner _ _

/-- Witness for C8 at the concrete impure-transform configuration. -/
theorem C8_transform_silent_witness :
    ((Val.vInt 2).ty = (Val.vInt 1).ty ∧
      lookupXf cfgX (Val.vInt 1).ty = some constZero ∧
      cfgX.showOrig = false ∧
      cycleCheck emptySt (emptyEm.set (some (Val.vInt 1)) (some (Val.vInt 2)))
        (Val.vInt 1).ty (Val.vInt 1) (Val.vInt 2) = CycOut.cont emptySt []) ∧
    walk cfgX emptySt emptyEm (some (Val.vInt 1)) (some (Val.vInt 2))
        true true =
      ⟨(walk cfgX emptySt
          ((emptyEm.set (some (Val.vInt 1)) (some (Val.vInt 2))).subf
            (Val.vInt 1).ty "(transformed)")
          (some (constZero.f (Val.vInt 1))) (some (constZero.f (Val.vInt 2)))
          false true).st,
        (walk cfgX emptySt
          ((emptyEm.set (some (Val.vInt 1)) (some (Val.vInt 2))).subf
            (Val.vInt 1).ty "(transformed)")
          (some (constZero.f (Val.vInt 1))) (some (constZero.f (Val.vInt 2)))
          false true).rep,
        [] ++ (walk cfgX emptySt
          ((emptyEm.set (some (Val.vInt 1)) (some (Val.vInt 2))).subf
            (Val.vInt 1).ty "(transformed)")
          (some (constZero.f (Val.vInt 1))) (some (constZero.f (Val.vInt 2)))
          false true).evs⟩ :=
  ⟨⟨rfl, rfl, rfl, rfl⟩,
    C8_transform_silent cfgX emptySt emptySt emptyEm (Val.vInt 1)
      (Val.vInt 2) true constZero [] rfl rfl rfl rfl⟩


/-!
C10: the fresh side session of the deep-equality check.
-/

/-- A format hook used to witness C10. -/
def fmtHookFn : Val → Val → String := fun _ _ => "hook"

/-- The default options plus a format hook for int. -/
def cfgF : Cfg := { defaultCfg with format := [(Ty.int, fmtHookFn)] }

/-- C10: the deep-equality check deciding whether a format hook fires, and
the item equality of the sequence diff, run in a fresh side session: a walk
from empty visit tables with the format hooks stripped, whose reports are
only counted. At a format-hook site the caller's visit tables are returned
unchanged and the caller's sink receives either nothing (side session
silent) or exactly the hooked difference; none of the side session's own
reports reach it. -/
theorem C10_fresh_side_session (c : Cfg) (st : St) (e : Em) (va vb : Val)
    (t : Ty) (xo wt : Bool) (ff : Val → Val → String)
    (hf : lookupFmt c t = some ff) :
    (walkRest c st e va vb t xo wt).st = st ∧
    (walkRest c st e va vb t xo wt).rep =
      (if (walk { c with format := [] } emptySt emptyEm (some va) (some vb)
          false true).rep.isEmpty
        then [] else emitf e (Msg.hooked (ff va vb))) ∧
    (∀ (a b : List Val) (ai bi : Nat),
      itemEq c a b ai bi =
        (walk { c with format := [] } emptySt emptyEm (a.get? ai)
          (b.get? bi) true true).rep.isEmpty) := by
  have heq : ∀ (av bv : Option Val) (xo2 : Bool), equal c av bv xo2 =
      (walk { c with format := [] } emptySt emptyEm av bv xo2
        true).rep.isEmpty := by
    intro av bv xo2
    rw [equal.eq_def]
  refine ⟨?_, ?_, ?_⟩
  · rw [walkRest_fmt _ _ _ _ _ _ _ _ ff hf]
    split <;> rfl
  · rw [walkRest_fmt _ _ _ _ _ _ _ _ ff hf, heq]
    split <;> rfl
  · intro a b ai bi
    have hit : itemEq c a b ai bi = equal c (a.get? ai) (b.get? bi) true :=
      rfl
    rw [hit, heq]

/-- Witness for C10 at a concrete configuration with an int format hook. -/
theorem C10_fresh_side_session_witness :
    lookupFmt cfgF Ty.int = some fmtHookFn ∧
    ((walkRest cfgF emptySt emptyEm (Val.vInt 1) (Val.vInt 2) Ty.int true
        true).st = emptySt ∧
    (walkRest cfgF emptySt emptyEm (Val.vInt 1) (Val.vInt 2) Ty.int true
        true).rep =
      (if (walk { cfgF with format := [] } emptySt emptyEm
          (some (Val.vInt 1)) (some (Val.vInt 2)) false true).rep.isEmpty
        then []
        else emitf emptyEm (Msg.hooked (fmtHookFn (Val.vInt 1)
          (Val.vInt 2)))) ∧
    (∀ (a b : List Val) (ai bi : Nat),
      itemEq cfgF a b ai bi =
        (walk { cfgF with format := [] } emptySt emptyEm (a.get? ai)
          (b.get? bi) true true).rep.isEmpty)) :=
  ⟨rfl, C10_fresh_side_session cfgF emptySt emptyEm (Val.vInt 1)
    (Val.vInt 2) Ty.int true true fmtHookFn rfl⟩


/-!
C3: termination and output of the walk on cyclic pointer structures.
-/

/-- The fixed pointer type of the cyclic model's nodes (Go: type P = *P; the
visit table only uses the identity-type pair, so one fixed type suffices). -/
def tyP : Ty := Ty.ptr Ty.int

/-- walk (diff.go, current variant) specialized to self-referential
single-pointer structures, which the tree-shaped Val cannot represent. A
node is a pointer value whose address is its id and whose referent is the
node sa/sb of it; all pointers are non-nil. Each step is the walk body for
the Ptr kind under a hook-free config: the cycle check (aSeen lookup -- a
mismatched counterpart emits "uneven cycle", a matched one returns
silently; then bSeen lookup -- a hit emits "uneven cycle"; else both
pairings are recorded), then the Ptr case (identical pointers stop,
otherwise descend into the referents). Fuel only bounds the recursion
depth: the theorems show the visit-table check stops the walk before fuel
at node count runs out. -/
def walkCyc (sa sb : Nat → Nat) : St → Nat → Nat → Nat →
    Option (St × List Msg)
  | _, _, _, 0 => none
  | st, a, b, Nat.succ fuel =>
    match lookupTab st.aSeen ⟨a, tyP⟩ with
    | some w =>
      if w ≠ ⟨b, tyP⟩ then some (st, [Msg.unevenCycle]) else some (st, [])
    | none =>
      match lookupTab st.bSeen ⟨b, tyP⟩ with
      | some _ => some (st, [Msg.unevenCycle])
      | none =>
        let st2 : St := ⟨(⟨a, tyP⟩, ⟨b, tyP⟩) :: st.aSeen,
          (⟨b, tyP⟩, ⟨a, tyP⟩) :: st.bSeen⟩
        if a = b then some (st2, [])
        else walkCyc sa sb st2 (sa a) (sb b) fuel

/-- Successor of a rho-shaped structure: a tail of t nodes leading into a
cycle of c nodes (node k points to k+1, the last node back to t). -/
def rhoSucc (t c k : Nat) : Nat := if k + 1 < t + c then k + 1 else t

/-- The node reached after k steps of a rho-shaped structure, for
k ≤ t + c. -/
def rhoIdx (t c k : Nat) : Nat := if k < t + c then k else t

/-- A-side node ids are even (2i), B-side ids odd (2i+1): the two
structures live at disjoint addresses. -/
def aSuccF (t c : Nat) : Nat → Nat := fun n => 2 * rhoSucc t c (n / 2)

def bSuccF (t c : Nat) : Nat → Nat := fun n => 2 * rhoSucc t c (n / 2) + 1

/-- The A visit table after k lockstep descents. -/
def aTabK : Nat → Table
  | 0 => []
  | Nat.succ k => (⟨2 * k, tyP⟩, ⟨2 * k + 1, tyP⟩) :: aTabK k

def bTabK : Nat → Table
  | 0 => []
  | Nat.succ k => (⟨2 * k + 1, tyP⟩, ⟨2 * k, tyP⟩) :: bTabK k

def stK (k : Nat) : St := ⟨aTabK k, bTabK k⟩

theorem lookup_aTabK (k i : Nat) :
    lookupTab (aTabK k) ⟨2 * i, tyP⟩ =
      if i < k then some ⟨2 * i + 1, tyP⟩ else none := by
  induction k with
  | zero => simp [aTabK, lookupTab, List.find?]
  | succ k ihk =>
    rw [aTabK, lookupTab, List.find?]
    by_cases h : i = k
    · subst h
      have hb : ((⟨2 * i, tyP⟩ : Visit) == ⟨2 * i, tyP⟩) = true := by
        simp
      simp only [hb]
      rw [if_pos (by omega)]
    · have hb : ((⟨2 * k, tyP⟩ : Visit) == ⟨2 * i, tyP⟩) = false := by
        simp only [beq_eq_false_iff_ne, ne_eq, Visit.mk.injEq]
        intro hcon
        exact h (by omega : i = k)
      simp only [hb]
      rw [lookupTab] at ihk
      rw [ihk]
      by_cases hik : i < k
      · rw [if_pos hik, if_pos (by omega)]
      · rw [if_neg hik, if_neg (by omega)]

theorem lookup_bTabK (k i : Nat) :
    lookupTab (bTabK k) ⟨2 * i + 1, tyP⟩ =
      if i < k then some ⟨2 * i, tyP⟩ else none := by
  induction k with
  | zero => simp [bTabK, lookupTab, List.find?]
  | succ k ihk =>
    rw [bTabK, lookupTab, List.find?]
    by_cases h : i = k
    · subst h
      have hb : ((⟨2 * i + 1, tyP⟩ : Visit) == ⟨2 * i + 1, tyP⟩) = true := by
        simp
      simp only [hb]
      rw [if_pos (by omega)]
    · have hb : ((⟨2 * k + 1, tyP⟩ : Visit) == ⟨2 * i + 1, tyP⟩) = false := by
        simp only [beq_eq_false_iff_ne, ne_eq, Visit.mk.injEq]
        intro hcon
        exact h (by omega : i = k)
      simp only [hb]
      rw [lookupTab] at ihk
      rw [ihk]
      by_cases hik : i < k
      · rw [if_pos hik, if_pos (by omega)]
      · rw [if_neg hik, if_neg (by omega)]

/-- Odd ids never occur in the A table. -/
theorem lookup_aTabK_odd (k i : Nat) :
    lookupTab (aTabK k) ⟨2 * i + 1, tyP⟩ = none := by
  induction k with
  | zero => simp [aTabK, lookupTab, List.find?]
  | succ k ihk =>
    rw [aTabK, lookupTab, List.find?]
    have hb : ((⟨2 * k, tyP⟩ : Visit) == ⟨2 * i + 1, tyP⟩) = false := by
      simp only [beq_eq_false_iff_ne, ne_eq, Visit.mk.injEq]
      intro hcon
      omega
    simp only [hb]
    rw [lookupTab] at ihk
    exact ihk


theorem walkCyc_sim (ta ca tb cb : Nat) (hca : 1 ≤ ca) (hcb : 1 ≤ cb) :
    ∀ (d k fuel : Nat), k + d = min (ta + ca) (tb + cb) →
      min (ta + ca) (tb + cb) < k + fuel →
      walkCyc (aSuccF ta ca) (bSuccF tb cb) (stK k)
        (2 * rhoIdx ta ca k) (2 * rhoIdx tb cb k + 1) fuel =
      some (stK (min (ta + ca) (tb + cb)),
        if ta = tb ∧ ca = cb then [] else [Msg.unevenCycle]) := by
  intro d
  induction d with
  | zero =>
    intro k fuel hk hfuel
    have hkK : k = min (ta + ca) (tb + cb) := by omega
    subst hkK
    cases fuel with
    | zero => omega
    | succ f =>
      rw [walkCyc]
      simp only [stK]
      rcases Nat.lt_trichotomy (ta + ca) (tb + cb) with hlt | heq | hgt
      · -- A side closes its cycle first: aSeen hit with an older counterpart
        have hK : min (ta + ca) (tb + cb) = ta + ca := by omega
        have hia : rhoIdx ta ca (min (ta + ca) (tb + cb)) = ta := by
          rw [rhoIdx, if_neg (by omega)]
        have hib : rhoIdx tb cb (min (ta + ca) (tb + cb)) =
            min (ta + ca) (tb + cb) := by
          rw [rhoIdx, if_pos (by omega)]
        rw [hia, hib, lookup_aTabK]
        rw [if_pos (by omega)]
        simp only
        rw [if_pos (by simp only [ne_eq, Visit.mk.injEq]; intro hcon; omega)]
        rw [if_neg (by intro hcon; omega)]
      · -- both close together: silent iff the pairing matches
        have hia : rhoIdx ta ca (min (ta + ca) (tb + cb)) = ta := by
          rw [rhoIdx, if_neg (by omega)]
        have hib : rhoIdx tb cb (min (ta + ca) (tb + cb)) = tb := by
          rw [rhoIdx, if_neg (by omega)]
        rw [hia, hib, lookup_aTabK, if_pos (by omega)]
        simp only
        by_cases htab : ta = tb
        · subst htab
          rw [if_neg (by simp)]
          rw [if_pos (by constructor <;> omega)]
        · rw [if_pos (by simp only [ne_eq, Visit.mk.injEq]; intro hcon; omega)]
          rw [if_neg (by intro hcon; exact htab hcon.1)]
      · -- B side closes first: bSeen hit
        have hK : min (ta + ca) (tb + cb) = tb + cb := by omega
        have hia : rhoIdx ta ca (min (ta + ca) (tb + cb)) =
            min (ta + ca) (tb + cb) := by
          rw [rhoIdx, if_pos (by omega)]
        have hib : rhoIdx tb cb (min (ta + ca) (tb + cb)) = tb := by
          rw [rhoIdx, if_neg (by omega)]
        rw [hia, hib, lookup_aTabK, if_neg (by omega), lookup_bTabK,
          if_pos (by omega)]
        simp only
        rw [if_neg (by intro hcon; omega)]
  | succ d ihd =>
    intro k fuel hk hfuel
    have hkK : k < min (ta + ca) (tb + cb) := by omega
    cases fuel with
    | zero => omega
    | succ f =>
      rw [walkCyc]
      simp only [stK]
      have hia : rhoIdx ta ca k = k := by
        rw [rhoIdx, if_pos (by omega)]
      have hib : rhoIdx tb cb k = k := by
        rw [rhoIdx, if_pos (by omega)]
      rw [hia, hib, lookup_aTabK, if_neg (by omega), lookup_bTabK,
        if_neg (by omega)]
      simp only
      rw [if_neg (by omega)]
      have hdiv : (2 * k) / 2 = k := by omega
      have hsa : aSuccF ta ca (2 * k) = 2 * rhoIdx ta ca (k + 1) := by
        rw [aSuccF, hdiv, rhoSucc, rhoIdx]
      have hdiv2 : (2 * k + 1) / 2 = k := by omega
      have hsb : bSuccF tb cb (2 * k + 1) = 2 * rhoIdx tb cb (k + 1) + 1 := by
        rw [bSuccF, hdiv2, rhoSucc, rhoIdx]
      have hst2 : (⟨(⟨2 * k, tyP⟩, ⟨2 * k + 1, tyP⟩) :: aTabK k,
          (⟨2 * k + 1, tyP⟩, ⟨2 * k, tyP⟩) :: bTabK k⟩ : St) =
          stK (k + 1) := rfl
      rw [hst2, hsa, hsb]
      exact ihd (k + 1) f (by omega) (by omega)

/-- C3: for every two rho-shaped self-referential pointer structures (tail
lengths ta, tb into cycles of lengths ca, cb) and any fuel beyond the
smaller node count, the specialized walk terminates by the visit-table
check, emits nothing exactly when the two structures are isomorphic
(ta = tb and ca = cb), and otherwise emits exactly one "uneven cycle"
difference. -/
theorem C3_cycle_termination (ta ca tb cb fuel : Nat) (hca : 1 ≤ ca)
    (hcb : 1 ≤ cb) (hfuel : min (ta + ca) (tb + cb) < fuel) :
    walkCyc (aSuccF ta ca) (bSuccF tb cb) emptySt 0 1 fuel =
      some (stK (min (ta + ca) (tb + cb)),
        if ta = tb ∧ ca = cb then [] else [Msg.unevenCycle]) := by
  have h := walkCyc_sim ta ca tb cb hca hcb (min (ta + ca) (tb + cb)) 0 fuel
    (by omega) (by omega)
  have h0a : rhoIdx ta ca 0 = 0 := by rw [rhoIdx, if_pos (by omega)]
  have h0b : rhoIdx tb cb 0 = 0 := by rw [rhoIdx, if_pos (by omega)]
  rw [h0a, h0b] at h
  simpa [stK, aTabK, bTabK, emptySt] using h

/-- Witness for C3: a one-node self-loop against a two-node cycle emits one
uneven-cycle difference and terminates with fuel 4. -/
theorem C3_cycle_termination_witness :
    1 ≤ 1 ∧ 1 ≤ 2 ∧ min (0 + 1) (0 + 2) < 4 ∧
    walkCyc (aSuccF 0 1) (bSuccF 0 2) emptySt 0 1 4 =
      some (stK (min (0 + 1) (0 + 2)),
        if 0 = 0 ∧ 1 = 2 then [] else [Msg.unevenCycle]) :=
  ⟨by omega, by omega, by decide,
    C3_cycle_termination 0 1 0 2 4 (by omega) (by omega) (by decide)⟩


/-! ### C9: visit-table discipline of a session -/


/-- Table evolution of the A side described by a trace: every insA prepends
its pairing, as the walker's cycle check does. -/
def applyEvsA : List Ev → Table → Table
  | [], ta => ta
  | Ev.insA k v :: evs, ta => applyEvsA evs ((k, v) :: ta)
  | _ :: evs, ta => applyEvsA evs ta

def applyEvsB : List Ev → Table → Table
  | [], tb => tb
  | Ev.insB k v :: evs, tb => applyEvsB evs ((k, v) :: tb)
  | _ :: evs, tb => applyEvsB evs tb

/-- Every insertion of the trace is of a key absent from its table at the
moment of insertion. -/
def freshIns : Table → Table → List Ev → Prop
  | _, _, [] => True
  | ta, tb, Ev.insA k v :: evs =>
    lookupTab ta k = none ∧ freshIns ((k, v) :: ta) tb evs
  | ta, tb, Ev.insB k v :: evs =>
    lookupTab tb k = none ∧ freshIns ta ((k, v) :: tb) evs
  | ta, tb, _ :: evs => freshIns ta tb evs

/-- Every structural descent of the trace is preceded by a lookup of its A
identity in the A table and of its B identity in the B table: la and lb
accumulate the looked-up keys. -/
def guardedFrom : List Visit → List Visit → List Ev → Prop
  | _, _, [] => True
  | la, lb, Ev.lookA k _ :: evs => guardedFrom (k :: la) lb evs
  | la, lb, Ev.lookB k _ :: evs => guardedFrom la (k :: lb) evs
  | la, lb, Ev.insA _ _ :: evs => guardedFrom la lb evs
  | la, lb, Ev.insB _ _ :: evs => guardedFrom la lb evs
  | la, lb, Ev.descend x y :: evs => x ∈ la ∧ y ∈ lb ∧ guardedFrom la lb evs

/-- Keys inserted into the A table, in order. -/
def insAKeys (evs : List Ev) : List Visit :=
  evs.filterMap (fun ev => match ev with
    | Ev.insA k _ => some k
    | _ => none)

def insBKeys (evs : List Ev) : List Visit :=
  evs.filterMap (fun ev => match ev with
    | Ev.insB k _ => some k
    | _ => none)

theorem applyEvsA_append (e1 e2 : List Ev) :
    ∀ ta, applyEvsA (e1 ++ e2) ta = applyEvsA e2 (applyEvsA e1 ta) := by
  induction e1 with
  | nil => intro ta; rfl
  | cons ev evs ihe =>
    intro ta
    cases ev <;> simp only [List.cons_append, applyEvsA] <;> exact ihe _

theorem applyEvsB_append (e1 e2 : List Ev) :
    ∀ tb, applyEvsB (e1 ++ e2) tb = applyEvsB e2 (applyEvsB e1 tb) := by
  induction e1 with
  | nil => intro tb; rfl
  | cons ev evs ihe =>
    intro tb
    cases ev <;> simp only [List.cons_append, applyEvsB] <;> exact ihe _

theorem freshIns_append {e1 e2 : List Ev} :
    ∀ {ta tb}, freshIns ta tb e1 →
      freshIns (applyEvsA e1 ta) (applyEvsB e1 tb) e2 →
      freshIns ta tb (e1 ++ e2) := by
  induction e1 with
  | nil => intro ta tb _ h2; exact h2
  | cons ev evs ihe =>
    intro ta tb h1 h2
    cases ev with
    | insA k v =>
      exact ⟨h1.1, ihe h1.2 h2⟩
    | insB k v =>
      exact ⟨h1.1, ihe h1.2 h2⟩
    | lookA k r => exact ihe h1 h2
    | lookB k r => exact ihe h1 h2
    | descend x y => exact ihe h1 h2

theorem guardedFrom_mono {evs : List Ev} :
    ∀ {la lb la2 lb2 : List Visit}, la ⊆ la2 → lb ⊆ lb2 →
      guardedFrom la lb evs → guardedFrom la2 lb2 evs := by
  induction evs with
  | nil => intro la lb la2 lb2 _ _ _; trivial
  | cons ev evs ihe =>
    intro la lb la2 lb2 hla hlb h
    cases ev with
    | lookA k r => exact ihe (List.cons_subset_cons k hla) hlb h
    | lookB k r => exact ihe hla (List.cons_subset_cons k hlb) h
    | insA k v => exact ihe hla hlb h
    | insB k v => exact ihe hla hlb h
    | descend x y => exact ⟨hla h.1, hlb h.2.1, ihe hla hlb h.2.2⟩

theorem guardedFrom_append {e1 e2 : List Ev} :
    ∀ {la lb : List Visit}, guardedFrom la lb e1 →
      (∀ la2 lb2, la ⊆ la2 → lb ⊆ lb2 → guardedFrom la2 lb2 e2) →
      guardedFrom la lb (e1 ++ e2) := by
  induction e1 with
  | nil =>
    intro la lb _ h2
    exact h2 la lb (fun x hx => hx) (fun x hx => hx)
  | cons ev evs ihe =>
    intro la lb h1 h2
    cases ev with
    | lookA k r =>
      exact ihe h1 (fun la2 lb2 ha hb =>
        h2 la2 lb2 (fun x hx => ha (List.mem_cons_of_mem k hx)) hb)
    | lookB k r =>
      exact ihe h1 (fun la2 lb2 ha hb =>
        h2 la2 lb2 ha (fun x hx => hb (List.mem_cons_of_mem k hx)))
    | insA k v => exact ihe h1 h2
    | insB k v => exact ihe h1 h2
    | descend x y => exact ⟨h1.1, h1.2.1, ihe h1.2.2 h2⟩


/-- Invariant of one walker call: the resulting tables are exactly the
initial tables extended by the trace's insertions, and every insertion was
of a fresh key. -/
def EvOk (st : St) (evs : List Ev) (st2 : St) : Prop :=
  st2.aSeen = applyEvsA evs st.aSeen ∧ st2.bSeen = applyEvsB evs st.bSeen ∧
  freshIns st.aSeen st.bSeen evs

/-- Full invariant of a walker call whose trace is self-guarding (all its
descents are guarded by lookups in the same trace). -/
def WOk (st : St) (o : Out) : Prop :=
  EvOk st o.evs o.st ∧ ∀ la lb, guardedFrom la lb o.evs

/-- Invariant of the parts of the walk after the cycle check: descents at
the pair's own identities may rely on the caller's cycle-check lookups,
recorded here as a membership precondition. -/
def WOkC (st : St) (va vb : Val) (t : Ty) (o : Out) : Prop :=
  EvOk st o.evs o.st ∧
  ∀ la lb, (∀ p q, cycIds va vb = some (p, q) →
      (⟨p, t⟩ : Visit) ∈ la ∧ (⟨q, t⟩ : Visit) ∈ lb) →
    guardedFrom la lb o.evs

theorem evOk_nil (st : St) : EvOk st [] st := ⟨rfl, rfl, trivial⟩

theorem evOk_append {st st1 st2 : St} {e1 e2 : List Ev}
    (h1 : EvOk st e1 st1) (h2 : EvOk st1 e2 st2) :
    EvOk st (e1 ++ e2) st2 := by
  obtain ⟨ha1, hb1, hf1⟩ := h1
  obtain ⟨ha2, hb2, hf2⟩ := h2
  refine ⟨?_, ?_, ?_⟩
  · rw [applyEvsA_append, ← ha1, ha2]
  · rw [applyEvsB_append, ← hb1, hb2]
  · refine freshIns_append hf1 ?_
    rw [← ha1, ← hb1]
    exact hf2

theorem wok_nil (st : St) (rep : List Report) : WOk st ⟨st, rep, []⟩ :=
  ⟨evOk_nil st, fun _ _ => trivial⟩

theorem wokc_nil (st : St) (va vb : Val) (t : Ty) (rep : List Report) :
    WOkC st va vb t ⟨st, rep, []⟩ :=
  ⟨evOk_nil st, fun _ _ _ => trivial⟩

theorem wok_to_wokc {st : St} {o : Out} (va vb : Val) (t : Ty)
    (h : WOk st o) : WOkC st va vb t o :=
  ⟨h.1, fun la lb _ => h.2 la lb⟩

/-- Composition of two consecutive self-guarding calls. -/
theorem wok_append {st : St} {st1 st2 : St} {r1 r2 r : List Report}
    {e1 e2 : List Ev} (h1 : WOk st ⟨st1, r1, e1⟩)
    (h2 : WOk st1 ⟨st2, r2, e2⟩) : WOk st ⟨st2, r, e1 ++ e2⟩ := by
  refine ⟨evOk_append h1.1 h2.1, fun la lb => ?_⟩
  exact guardedFrom_append (h1.2 la lb) (fun la2 lb2 _ _ => h2.2 la2 lb2)

/-- A descent at the pair's own cycle identities, followed by a
self-guarding trace, is allowed under the cycle-check precondition. -/
theorem wokc_descend {st : St} {o : Out} {va vb : Val} {t : Ty} {p q : Nat}
    {rep : List Report}
    (hci : cycIds va vb = some (p, q)) (h : WOk st o) :
    WOkC st va vb t ⟨o.st, rep, Ev.descend ⟨p, t⟩ ⟨q, t⟩ :: o.evs⟩ := by
  constructor
  · have he := h.1
    exact ⟨he.1, he.2.1, he.2.2⟩
  · intro la lb hpre
    obtain ⟨hma, hmb⟩ := hpre p q hci
    exact ⟨hma, hmb, h.2 la lb⟩

/-- Traces made only of lookups. -/
def LooksOnly : List Ev → Prop
  | [] => True
  | Ev.lookA _ _ :: evs => LooksOnly evs
  | Ev.lookB _ _ :: evs => LooksOnly evs
  | _ :: _ => False

theorem looksOnly_wok {evs : List Ev} (h : LooksOnly evs) (st : St)
    (rep : List Report) : WOk st ⟨st, rep, evs⟩ := by
  refine ⟨⟨?_, ?_, ?_⟩, ?_⟩
  · show st.aSeen = applyEvsA evs st.aSeen
    induction evs generalizing st with
    | nil => rfl
    | cons ev evs2 ihe =>
      cases ev with
      | lookA k r => exact ihe h st
      | lookB k r => exact ihe h st
      | insA k v => exact absurd h (by simp [LooksOnly])
      | insB k v => exact absurd h (by simp [LooksOnly])
      | descend x y => exact absurd h (by simp [LooksOnly])
  · show st.bSeen = applyEvsB evs st.bSeen
    induction evs generalizing st with
    | nil => rfl
    | cons ev evs2 ihe =>
      cases ev with
      | lookA k r => exact ihe h st
      | lookB k r => exact ihe h st
      | insA k v => exact absurd h (by simp [LooksOnly])
      | insB k v => exact absurd h (by simp [LooksOnly])
      | descend x y => exact absurd h (by simp [LooksOnly])
  · show freshIns st.aSeen st.bSeen evs
    induction evs generalizing st with
    | nil => trivial
    | cons ev evs2 ihe =>
      cases ev with
      | lookA k r => exact ihe h st
      | lookB k r => exact ihe h st
      | insA k v => exact absurd h (by simp [LooksOnly])
      | insB k v => exact absurd h (by simp [LooksOnly])
      | descend x y => exact absurd h (by simp [LooksOnly])
  · intro la lb
    show guardedFrom la lb evs
    induction evs generalizing la lb with
    | nil => trivial
    | cons ev evs2 ihe =>
      cases ev with
      | lookA k r => exact ihe h _ _
      | lookB k r => exact ihe h _ _
      | insA k v => exact absurd h (by simp [LooksOnly])
      | insB k v => exact absurd h (by simp [LooksOnly])
      | descend x y => exact absurd h (by simp [LooksOnly])

/-- The traces the cycle check returns early with contain only lookups. -/
theorem cycleCheck_ret_looks {st : St} {e : Em} {t : Ty} {va vb : Val}
    {rep : List Report} {evs : List Ev}
    (h : cycleCheck st e t va vb = CycOut.ret rep evs) : LooksOnly evs := by
  rw [cycleCheck] at h
  rcases hci : cycIds va vb with _ | pq
  · rw [hci] at h
    cases h
  · rw [hci] at h
    simp only at h
    rcases hla : lookupTab st.aSeen ⟨pq.1, t⟩ with _ | w
    · rw [hla] at h
      simp only at h
      rcases hlb : lookupTab st.bSeen ⟨pq.2, t⟩ with _ | x
      · rw [hlb] at h
        cases h
      · rw [hlb] at h
        cases h
        simp [LooksOnly]
    · rw [hla] at h
      simp only at h
      by_cases hw : w ≠ ⟨pq.2, t⟩
      · rw [if_pos hw] at h
        cases h
        simp [LooksOnly]
      · rw [if_neg hw] at h
        cases h
        simp [LooksOnly]

/-- Characterization of the cycle check's continue outcome. -/
theorem cycleCheck_cont_char {st st1 : St} {e : Em} {t : Ty} {va vb : Val}
    {evs0 : List Ev}
    (h : cycleCheck st e t va vb = CycOut.cont st1 evs0) :
    (evs0 = [] ∧ st1 = st ∧ cycIds va vb = none) ∨
    (∃ p q, cycIds va vb = some (p, q) ∧
      lookupTab st.aSeen ⟨p, t⟩ = none ∧
      lookupTab st.bSeen ⟨q, t⟩ = none ∧
      st1 = ⟨(⟨p, t⟩, ⟨q, t⟩) :: st.aSeen, (⟨q, t⟩, ⟨p, t⟩) :: st.bSeen⟩ ∧
      evs0 = [Ev.lookA ⟨p, t⟩ none, Ev.lookB ⟨q, t⟩ none,
        Ev.insA ⟨p, t⟩ ⟨q, t⟩, Ev.insB ⟨q, t⟩ ⟨p, t⟩]) := by
  rw [cycleCheck] at h
  rcases hci : cycIds va vb with _ | pq
  · rw [hci] at h
    cases h
    exact Or.inl ⟨rfl, rfl, rfl⟩
  · rw [hci] at h
    simp only at h
    rcases hla : lookupTab st.aSeen ⟨pq.1, t⟩ with _ | w
    · rw [hla] at h
      simp only at h
      rcases hlb : lookupTab st.bSeen ⟨pq.2, t⟩ with _ | x
      · rw [hlb] at h
        cases h
        exact Or.inr ⟨pq.1, pq.2, rfl, hla, hlb, rfl, rfl⟩
      · rw [hlb] at h
        cases h
    · rw [hla] at h
      simp only at h
      by_cases hw : w ≠ ⟨pq.2, t⟩
      · rw [if_pos hw] at h
        cases h
      · rw [if_neg hw] at h
        cases h


/-- Composition of the cycle check's continue outcome with the rest of the
walk: the recorded lookups guard the rest's identity descent. -/
theorem wok_cont {st st1 : St} {e : Em} {t : Ty} {va vb : Val}
    {evs0 : List Ev} {o : Out} (rep : List Report)
    (hcyc : cycleCheck st e t va vb = CycOut.cont st1 evs0)
    (h : WOkC st1 va vb t o) :
    WOk st ⟨o.st, rep, evs0 ++ o.evs⟩ := by
  rcases cycleCheck_cont_char hcyc with ⟨he, hst, hci⟩ |
    ⟨p, q, hci, hla, hlb, hst, he⟩
  · subst he
    subst hst
    constructor
    · simp only [List.nil_append]
      exact h.1
    · intro la lb
      simp only [List.nil_append]
      refine h.2 la lb ?_
      intro p2 q2 hq
      rw [hci] at hq
      cases hq
  · subst hst
    subst he
    constructor
    · refine evOk_append ?_ h.1
      exact ⟨rfl, rfl, hla, hlb, trivial⟩
    · intro la lb
      simp only [List.cons_append, List.nil_append, guardedFrom]
      refine h.2 _ _ ?_
      intro p2 q2 hq
      rw [hci] at hq
      simp only [Option.some.injEq, Prod.mk.injEq] at hq
      obtain ⟨h1, h2⟩ := hq
      subst h1
      subst h2
      exact ⟨List.mem_cons_self _ _, List.mem_cons_self _ _⟩

/-- Composition for the transform branch with ShowOriginal set: the
transformed walk's trace followed by the raw pair's dispatch. -/
theorem wok_cont2 {st st1 : St} {e : Em} {t : Ty} {va vb : Val}
    {evs0 : List Ev} {o1 o2 : Out} (rep : List Report)
    (hcyc : cycleCheck st e t va vb = CycOut.cont st1 evs0)
    (h1 : WOk st1 o1) (h2 : WOkC o1.st va vb t o2) :
    WOk st ⟨o2.st, rep, evs0 ++ o1.evs ++ o2.evs⟩ := by
  rcases cycleCheck_cont_char hcyc with ⟨he, hst, hci⟩ |
    ⟨p, q, hci, hla, hlb, hst, he⟩
  · subst he
    subst hst
    constructor
    · simp only [List.nil_append]
      exact evOk_append h1.1 h2.1
    · intro la lb
      simp only [List.nil_append]
      refine guardedFrom_append (h1.2 la lb) ?_
      intro la2 lb2 _ _
      refine h2.2 la2 lb2 ?_
      intro p2 q2 hq
      rw [hci] at hq
      cases hq
  · subst hst
    subst he
    constructor
    · refine evOk_append (evOk_append ?_ h1.1) h2.1
      exact ⟨rfl, rfl, hla, hlb, trivial⟩
    · intro la lb
      simp only [List.cons_append, List.nil_append, guardedFrom]
      refine guardedFrom_append (h1.2 _ _) ?_
      intro la2 lb2 hs1 hs2
      refine h2.2 la2 lb2 ?_
      intro p2 q2 hq
      rw [hci] at hq
      simp only [Option.some.injEq, Prod.mk.injEq] at hq
      obtain ⟨h3, h4⟩ := hq
      subst h3
      subst h4
      exact ⟨hs1 (List.mem_cons_self _ _), hs2 (List.mem_cons_self _ _)⟩


/-- The session invariant of the whole walker, by mutual functional
induction: every call extends the tables exactly by its trace's fresh
insertions, and every descent in a trace is guarded by the cycle-check
lookups recorded earlier in the same trace. -/
theorem walk_ev_invariant :
    (∀ (c : Cfg) (st : St) (e : Em) (av bv : Option Val) (xo wt : Bool),
      WOk st (walk c st e av bv xo wt)) ∧
    (∀ (c : Cfg) (st : St) (e : Em) (va vb : Val) (t : Ty) (xo wt : Bool),
      WOkC st va vb t (walkRest c st e va vb t xo wt)) ∧
    (∀ (c : Cfg) (av bv : Option Val) (xo : Bool), True) ∧
    (∀ (c : Cfg) (st : St) (e : Em) (va vb : Val) (t : Ty) (xo wt : Bool),
      WOkC st va vb t (walkKind c st e va vb t xo wt)) ∧
    (∀ (c : Cfg) (st : St) (e : Em) (t : Ty) (ea eb : List (Int × Val))
      (ks : List Int), WOk st (walkMapKeys c st e t ea eb ks)) ∧
    (∀ (c : Cfg) (st : St) (e : Em) (t : Ty)
      (fas fbs : List (String × Val)),
      WOk st (walkFields c st e t fas fbs)) ∧
    (∀ (c : Cfg) (st : St) (e : Em) (t : Ty) (la lb : List Val),
      WOk st (seqDiff c st e t la lb)) ∧
    (∀ (c : Cfg) (st : St) (e : Em) (t : Ty) (la lb : List Val)
      (edits : List Diffseq.Edit),
      WOk st (seqEntries c st e t la lb edits)) ∧
    (∀ (c : Cfg) (st : St) (e : Em) (t : Ty) (la lb : List Val)
      (a0 b0 n : Nat), WOk st (walkPositions c st e t la lb a0 b0 n)) ∧
    (∀ (c : Cfg) (lc lb : List Val), True) ∧
    (∀ (c : Cfg) (va : Val) (lb : List Val), True) := by
  apply walk.mutual_induct
  · -- walk none none
    intro c st e xo wt
    simp only [walk.eq_def]
    exact wok_nil st []
  · -- walk none some
    intro c st e xo wt vb
    simp only [walk.eq_def]
    exact wok_nil st _
  · -- walk some none
    intro c st e xo wt va
    simp only [walk.eq_def]
    exact wok_nil st _
  · -- walk: type mismatch
    intro c st e xo wt va vb t ht
    have ht2 : va.ty ≠ vb.ty := ht
    rw [walk.eq_def]
    simp only [ne_eq, ht2, not_false_eq_true, if_true]
    exact wok_nil st _
  · -- walk: cycle check returns
    intro c st e xo wt va vb t ht rep evs e1 hcyc
    have ht2 : ¬ va.ty ≠ vb.ty := ht
    have hcyc2 : cycleCheck st (e.set (some va) (some vb)) va.ty va vb =
        CycOut.ret rep evs := hcyc
    rw [walk.eq_def]
    simp only [ne_eq, ht2, not_false_eq_true, if_false, hcyc2,
      not_true_eq_false, if_true, ite_not]
    exact looksOnly_wok (cycleCheck_ret_looks hcyc2) st rep
  · -- walk: transform, original hidden
    intro c st e wt va vb t ht st1 evs0 xf hxf ax bx hso e1 hcyc ih1
    have hteq : vb.ty = va.ty := by
      have ht2 : ¬ va.ty ≠ vb.ty := ht
      exact (not_ne_iff.mp ht2).symm
    have hcyc2 : cycleCheck st (e.set (some va) (some vb)) va.ty va vb =
        CycOut.cont st1 evs0 := hcyc
    have hxf2 : lookupXf c va.ty = some xf := hxf
    have hso2 : c.showOrig = false := by
      rwa [Bool.not_eq_true] at hso
    rw [walk.eq_def]
    simp only [hteq, ne_eq, not_true_eq_false, if_false, hcyc2, hxf2, hso2,
      Bool.false_eq_true, dite_true, not_false_eq_true, if_true]
    exact wok_cont _ hcyc2 (wok_to_wokc va vb va.ty ih1)
  · -- walk: transform, original shown and equal
    intro c st e wt va vb t ht st1 evs0 xf hxf ax bx hson heqt e1 hcyc ih1
      ih3
    have hteq : vb.ty = va.ty := by
      have ht2 : ¬ va.ty ≠ vb.ty := ht
      exact (not_ne_iff.mp ht2).symm
    have hcyc2 : cycleCheck st (e.set (some va) (some vb)) va.ty va vb =
        CycOut.cont st1 evs0 := hcyc
    have hxf2 : lookupXf c va.ty = some xf := hxf
    have hso2 : c.showOrig = true := by
      have := hson
      by_cases h : c.showOrig = true
      · exact h
      · exact absurd h (by simpa using hson)
    have heqt2 : equal c (some va) (some vb) false = true := heqt
    rw [walk.eq_def]
    simp only [hteq, ne_eq, not_true_eq_false, if_false, hcyc2, hxf2, hso2,
      dite_true, heqt2, if_true]
    exact wok_cont _ hcyc2 (wok_to_wokc va vb va.ty ih1)
  · -- walk: transform, original shown and unequal
    intro c st e wt va vb t ht st1 evs0 xf hxf ax bx hson hneq e1 hcyc o1
      e2 ih1 ih3 ih1b ih2
    have hteq : vb.ty = va.ty := by
      have ht2 : ¬ va.ty ≠ vb.ty := ht
      exact (not_ne_iff.mp ht2).symm
    have hcyc2 : cycleCheck st (e.set (some va) (some vb)) va.ty va vb =
        CycOut.cont st1 evs0 := hcyc
    have hxf2 : lookupXf c va.ty = some xf := hxf
    have hso2 : c.showOrig = true := by
      by_cases h : c.showOrig = true
      · exact h
      · exact absurd h (by simpa using hson)
    have heqf : equal c (some va) (some vb) false = false := by
      rwa [Bool.not_eq_true] at hneq
    rw [walk.eq_def]
    simp only [hteq, ne_eq, not_true_eq_false, if_false, hcyc2, hxf2, hso2,
      dite_true, heqf, Bool.false_eq_true, if_true]
    exact wok_cont2 _ hcyc2 ih1 ih2
  · -- walk: transform registered but not permitted
    intro c st e xo wt va vb t ht st1 evs0 xf hxf hxo e1 hcyc ih2
    have hteq : vb.ty = va.ty := by
      have ht2 : ¬ va.ty ≠ vb.ty := ht
      exact (not_ne_iff.mp ht2).symm
    have hcyc2 : cycleCheck st (e.set (some va) (some vb)) va.ty va vb =
        CycOut.cont st1 evs0 := hcyc
    have hxf2 : lookupXf c va.ty = some xf := hxf
    have hxo2 : xo = false := by
      rwa [Bool.not_eq_true] at hxo
    subst hxo2
    rw [walk.eq_def]
    simp only [hteq, ne_eq, not_true_eq_false, if_false, hcyc2, hxf2,
      Bool.false_eq_true, dite_false]
    exact wok_cont _ hcyc2 ih2
  · -- walk: no transform registered
    intro c st e xo wt va vb t ht st1 evs0 hxfn e1 hcyc ih2
    have hteq : vb.ty = va.ty := by
      have ht2 : ¬ va.ty ≠ vb.ty := ht
      exact (not_ne_iff.mp ht2).symm
    have hcyc2 : cycleCheck st (e.set (some va) (some vb)) va.ty va vb =
        CycOut.cont st1 evs0 := hcyc
    have hxf2 : lookupXf c va.ty = none := hxfn
    rw [walk.eq_def]
    simp only [hteq, ne_eq, not_true_eq_false, if_false, hcyc2, hxf2]
    exact wok_cont _ hcyc2 ih2
  · -- walkRest: empty format table
    intro c st e va vb t xo wt hfe ih4
    rw [walkRest.eq_def, dif_pos hfe]
    exact ih4
  · -- walkRest: hook fires, side session silent
    intro c st e va vb t xo wt hfe ff hfm heqt ih3
    rw [walkRest_fmt _ _ _ _ _ _ _ _ ff hfm, if_pos heqt]
    exact wokc_nil st va vb t []
  · -- walkRest: hook fires, difference emitted
    intro c st e va vb t xo wt hfe ff hfm hneq ih3
    rw [walkRest_fmt _ _ _ _ _ _ _ _ ff hfm, if_neg hneq]
    exact wokc_nil st va vb t _
  · -- walkRest: no hook for this type
    intro c st e va vb t xo wt hfe hfm ih4
    rw [walkRest_nofmt _ _ _ _ _ _ _ _ hfm]
    exact ih4
  · -- equal
    intro c av bv xo _
    trivial
  · -- walkKind: arrays
    intro c st e t xo wt t1 la t2 lb ih7
    rw [walkKind_arr]
    exact wok_to_wokc _ _ _ ih7
  · -- walkKind: structs
    intro c st e t xo wt na fas nb fbs ih6
    rw [walkKind_struct]
    exact wok_to_wokc _ _ _ ih6
  · -- walkKind: funcs compare equal by option
    intro c st e t xo wt fa fb hef
    rw [walkKind_func, if_pos hef]
    exact wokc_nil st _ _ t []
  · -- walkKind: funcs, one side non-nil
    intro c st e t xo wt fa fb hef hsome
    rw [walkKind_func, if_neg hef, if_pos hsome]
    exact wokc_nil st _ _ t _
  · -- walkKind: funcs, both nil
    intro c st e t xo wt fa fb hef hsome
    rw [walkKind_func, if_neg hef, if_neg hsome]
    exact wokc_nil st _ _ t []
  · -- walkKind: maps of unequal nilness
    intro c st e t xo wt t1 ma t2 mb hnil
    simp only [walkKind.eq_def]
    rw [dif_pos hnil]
    exact wokc_nil st _ _ t _
  · -- walkKind: maps of equal identity
    intro c st e t xo wt t1 ma t2 mb hnil hpid
    rw [walkKind_map_pideq _ _ _ _ _ _ _ _ _ _ hpid]
    exact wokc_nil st _ _ t []
  · -- walkKind: maps, both non-nil, distinct identities
    intro c st e t xo wt t1 t2 pa pb hnil1 hnil2 hpid ih5
    have hne : pa.1 ≠ pb.1 := by
      intro hh
      exact hpid (by simp [pid, hh])
    rw [walkKind_map_some _ _ _ _ _ pa pb _ _ _ hne]
    simp only
    exact wokc_descend rfl ih5
  · -- walkKind: maps, unreachable fall-through arm
    intro c st e t xo wt t1 ma t2 mb hnil hpid hnil2 himp
    exfalso
    rcases hma : ma with _ | pa <;> rcases hmb : mb with _ | pb
    · exact hpid (by rw [hma, hmb])
    · rw [hma, hmb] at hnil
      simp at hnil
    · rw [hma, hmb] at hnil
      simp at hnil
    · exact himp pa pb (by simp) hma hmb (proof_irrel_heq _ _)
  · -- walkKind: pointers of equal identity
    intro c st e t xo wt t1 pa t2 pb hpid
    rw [walkKind_ptr_pideq _ _ _ _ _ _ _ _ _ _ hpid]
    exact wokc_nil st _ _ t []
  · -- walkKind: pointers of unequal nilness
    intro c st e t xo wt t1 pa t2 pb hpid hnil
    simp only [walkKind.eq_def]
    rw [if_neg hpid, dif_pos hnil]
    exact wokc_nil st _ _ t _
  · -- walkKind: pointers, both non-nil and distinct
    intro c st e t xo wt t1 t2 qa qb hnil1 hpid hnil2 ih1
    have hne : qa.1 ≠ qb.1 := by
      intro hh
      exact hpid (by simp [pid, hh])
    rw [walkKind_ptr_some _ _ _ _ _ qa qb _ _ _ hne]
    simp only
    exact wokc_descend rfl ih1
  · -- walkKind: pointers, unreachable fall-through arm
    intro c st e t xo wt t1 pa t2 pb hpid hnil hnil2 himp
    exfalso
    rcases hma : pa with _ | qa <;> rcases hmb : pb with _ | qb
    · exact hpid (by rw [hma, hmb])
    · rw [hma, hmb] at hnil2
      simp at hnil2
    · rw [hma, hmb] at hnil2
      simp at hnil2
    · exact himp qa qb (by simp) hma hmb (proof_irrel_heq _ _)
  · -- walkKind: slices of unequal nilness
    intro c st e t xo wt t1 sa t2 sb hnil
    simp only [walkKind.eq_def]
    rw [dif_pos hnil]
    exact wokc_nil st _ _ t _
  · -- walkKind: slices, both nil
    intro c st e t xo wt t1 t2 hnil1 hnil2
    simp only [walkKind.eq_def]
    rw [dif_neg hnil1]
    exact wokc_nil st _ _ t []
  · -- walkKind: slices of equal length and identity
    intro c st e t xo wt t1 t2 qa qb hnil1 heq hnil2
    simp only [walkKind.eq_def, Option.isNone_some, ne_eq,
      not_true_eq_false, not_false_eq_true, dite_false]
    rw [if_pos heq]
    exact wokc_nil st _ _ t []
  · -- walkKind: slices compared elementwise
    intro c st e t xo wt t1 t2 qa qb hnil1 hneq hnil2 ih7
    rw [walkKind_slice_some _ _ _ _ _ qa qb _ _ _ hneq]
    simp only
    exact wokc_descend rfl ih7
  · -- walkKind: slices, unreachable fall-through arm
    intro c st e t xo wt t1 sa t2 sb hnil hnil2 himpn himps
    exfalso
    rcases hma : sa with _ | qa <;> rcases hmb : sb with _ | qb
    · exact himpn (by simp) hma hmb (proof_irrel_heq _ _)
    · rw [hma, hmb] at hnil
      simp at hnil
    · rw [hma, hmb] at hnil
      simp at hnil
    · exact himps qa qb (by simp) hma hmb (proof_irrel_heq _ _)
  · -- walkKind: ints
    intro c st e t xo wt a2 b2
    rw [walkKind_int]
    exact wokc_nil st _ _ t _
  · -- walkKind: bools
    intro c st e t xo wt a2 b2
    rw [walkKind_bool]
    exact wokc_nil st _ _ t _
  · -- walkKind: strings
    intro c st e t xo wt a2 b2
    rw [walkKind_str]
    exact wokc_nil st _ _ t _
  · -- walkKind: mismatched shapes (unreachable after the type check)
    intro c st e va vb t xo wt h1 h2 h3 h4 h5 h6 h7 h8 h9
    simp only [walkKind.eq_def]
    exact wokc_nil st _ _ t []
  · -- walkMapKeys: no keys left
    intro c st e t ea eb
    rw [walkMapKeys.eq_def]
    exact wok_nil st []
  · -- walkMapKeys: next key
    intro c st e t ea eb y ys
    rcases hma : mapIndex ea y with _ | va2 <;>
      rcases hmb : mapIndex eb y with _ | vb2 <;>
      simp only [hma, hmb] <;> intro ih1 ih1b ihtail <;>
      rw [walkMapKeys.eq_def] <;> simp only <;> rw [hma, hmb]
    · exact wok_append (wok_nil st []) ihtail
    · exact wok_append
        (wok_nil st (emitf ((e.subf t ("[" ++ toString y ++ "]")).set none
          (some vb2)) (Msg.added vb2))) ihtail
    · exact wok_append
        (wok_nil st (emitf ((e.subf t ("[" ++ toString y ++ "]")).set
          (some va2) none) Msg.removed)) ihtail
    · exact wok_append (ih1 va2 vb2 rfl rfl) ihtail
  · -- walkFields: no A fields left
    intro c st e t fbs
    rw [walkFields.eq_def]
    exact wok_nil st []
  · -- walkFields: no B fields left
    intro c st e t fa fas
    rw [walkFields.eq_def]
    exact wok_nil st []
  · -- walkFields: next field pair
    intro c st e t fa fas fb fbs o1 ih1 ih6
    rw [walkFields.eq_def]
    simp only
    exact wok_append ih1 ih6
  · -- seqDiff
    intro c st e t la lb m ih10 ih8
    simp only [seqDiff.eq_def]
    exact ih8
  · -- seqEntries: no entries left
    intro c st e t la lb
    rw [seqEntries.eq_def]
    exact wok_nil st []
  · -- seqEntries: same-length entry
    intro c st e t la lb ed tail hlen2 o1 ih9 ih8
    rw [seqEntries.eq_def]
    simp only
    rw [if_pos hlen2]
    exact wok_append ih9 ih8
  · -- seqEntries: range entry
    intro c st e t la lb ed tail hlen2 ih8
    rw [seqEntries.eq_def]
    simp only
    rw [if_neg hlen2]
    exact ⟨ih8.1, ih8.2⟩
  · -- walkPositions: done
    intro c st e t la lb a0 b0
    rw [walkPositions.eq_def]
    exact wok_nil st []
  · -- walkPositions: next position
    intro c st e t la lb a0 b0 n o1 ih1 ih9
    rw [walkPositions.eq_def]
    simp only
    exact wok_append ih1 ih9
  · -- eqMat nil
    intro c lb
    trivial
  · -- eqMat cons
    intro c va lc lb _ _
    trivial
  · -- eqRow nil
    intro c va
    trivial
  · -- eqRow cons
    intro c va v vs _ _
    trivial


theorem lookupTab_cons_self (ta : Table) (k v : Visit) :
    lookupTab ((k, v) :: ta) k = some v := by
  simp [lookupTab, List.find?_cons_of_pos]

theorem lookupTab_cons_none {ta : Table} {k v k2 : Visit}
    (h : lookupTab ((k, v) :: ta) k2 = none) :
    lookupTab ta k2 = none ∧ k ≠ k2 := by
  by_cases hk : k = k2
  · subst hk
    rw [lookupTab_cons_self] at h
    exact absurd h (by simp)
  · refine ⟨?_, hk⟩
    have hfind : ((k, v) :: ta).find? (fun x => x.1 == k2) =
        ta.find? (fun x => x.1 == k2) := by
      rw [List.find?_cons_of_neg]
      simp [hk]
    simpa [lookupTab, hfind] using h

theorem freshIns_nodup : ∀ (evs : List Ev) (ta tb : Table),
    freshIns ta tb evs →
    ((insAKeys evs).Nodup ∧ ∀ k ∈ insAKeys evs, lookupTab ta k = none) ∧
    ((insBKeys evs).Nodup ∧ ∀ k ∈ insBKeys evs, lookupTab tb k = none) := by
  intro evs
  induction evs with
  | nil => intro ta tb _; simp [insAKeys, insBKeys]
  | cons ev evs ih =>
    intro ta tb hf
    cases ev with
    | insA k v =>
      obtain ⟨hk, hf2⟩ := hf
      obtain ⟨⟨hna, hla⟩, ⟨hnb, hlb⟩⟩ := ih ((k, v) :: ta) tb hf2
      refine ⟨⟨?_, ?_⟩, hnb, ?_⟩
      · simp only [insAKeys, List.filterMap_cons]
        simp only [List.nodup_cons]
        refine ⟨fun hmem => ?_, hna⟩
        have := hla k hmem
        rw [lookupTab_cons_self] at this
        exact absurd this (by simp)
      · intro k2 hk2
        simp only [insAKeys, List.filterMap_cons] at hk2
        rcases List.mem_cons.mp hk2 with h | h
        · exact h ▸ hk
        · exact (lookupTab_cons_none (hla k2 h)).1
      · intro k2 hk2
        simp only [insBKeys, List.filterMap_cons] at hk2
        exact hlb k2 hk2
    | insB k v =>
      obtain ⟨hk, hf2⟩ := hf
      obtain ⟨⟨hna, hla⟩, ⟨hnb, hlb⟩⟩ := ih ta ((k, v) :: tb) hf2
      refine ⟨⟨hna, ?_⟩, ⟨?_, ?_⟩⟩
      · intro k2 hk2
        simp only [insAKeys, List.filterMap_cons] at hk2
        exact hla k2 hk2
      · simp only [insBKeys, List.filterMap_cons]
        simp only [List.nodup_cons]
        refine ⟨fun hmem => ?_, hnb⟩
        have := hlb k hmem
        rw [lookupTab_cons_self] at this
        exact absurd this (by simp)
      · intro k2 hk2
        simp only [insBKeys, List.filterMap_cons] at hk2
        rcases List.mem_cons.mp hk2 with h | h
        · exact h ▸ hk
        · exact (lookupTab_cons_none (hlb k2 h)).1
    | lookA k =>
      have hf2 : freshIns ta tb evs := hf
      obtain ⟨⟨hna, hla⟩, ⟨hnb, hlb⟩⟩ := ih ta tb hf2
      exact ⟨⟨by simpa [insAKeys, List.filterMap_cons] using hna,
        fun k2 hk2 => hla k2 (by simpa [insAKeys, List.filterMap_cons]
          using hk2)⟩,
        ⟨by simpa [insBKeys, List.filterMap_cons] using hnb,
        fun k2 hk2 => hlb k2 (by simpa [insBKeys, List.filterMap_cons]
          using hk2)⟩⟩
    | lookB k =>
      have hf2 : freshIns ta tb evs := hf
      obtain ⟨⟨hna, hla⟩, ⟨hnb, hlb⟩⟩ := ih ta tb hf2
      exact ⟨⟨by simpa [insAKeys, List.filterMap_cons] using hna,
        fun k2 hk2 => hla k2 (by simpa [insAKeys, List.filterMap_cons]
          using hk2)⟩,
        ⟨by simpa [insBKeys, List.filterMap_cons] using hnb,
        fun k2 hk2 => hlb k2 (by simpa [insBKeys, List.filterMap_cons]
          using hk2)⟩⟩
    | descend x y =>
      have hf2 : freshIns ta tb evs := hf
      obtain ⟨⟨hna, hla⟩, ⟨hnb, hlb⟩⟩ := ih ta tb hf2
      exact ⟨⟨by simpa [insAKeys, List.filterMap_cons] using hna,
        fun k2 hk2 => hla k2 (by simpa [insAKeys, List.filterMap_cons]
          using hk2)⟩,
        ⟨by simpa [insBKeys, List.filterMap_cons] using hnb,
        fun k2 hk2 => hlb k2 (by simpa [insBKeys, List.filterMap_cons]
          using hk2)⟩⟩

/-- C9: throughout one comparison session (one call of each), the ghost
trace of visit-table operations shows that every (address, type) pair is
inserted into the A table at most once and into the B table at most once,
and that every structural descent into a pair of non-nil pointers, maps or
slices is preceded, earlier in the same trace, by a lookup of its A
identity in the A table and of its B identity in the B table. -/
theorem C9_visit_discipline (c : Cfg) (a b : Option Val) :
    (insAKeys (eachOut c a b).evs).Nodup ∧
    (insBKeys (eachOut c a b).evs).Nodup ∧
    guardedFrom [] [] (eachOut c a b).evs := by
  have hw : WOk emptySt (eachOut c a b) :=
    walk_ev_invariant.1 c emptySt emptyEm (addressable a) (addressable b)
      true true
  obtain ⟨⟨_, _, hfresh⟩, hguard⟩ := hw
  have hn := freshIns_nodup (eachOut c a b).evs emptySt.aSeen
    emptySt.bSeen hfresh
  exact ⟨hn.1.1, hn.2.1, hguard [] []⟩


end KrDiff
